import Mathlib

/-!
Verification of the algorithmic core of the groupcache_read repository:
the consistent-hash ring (`consistenthash` package), the LRU cache
(`lru` package), the single-flight coordinator (`singleflight` package),
and the ByteView / Sink machinery (`groupcache` package).

Go strings are modelled as lists of bytes (`List Nat`, each element a
byte value), Go `uint32` values as natural numbers reduced modulo `2^32`,
Go `int` fields that the code compares against lengths as `Int`, and Go
nil pointers / nil maps as `Option`.
-/

/-- A Go string or byte slice, viewed as its sequence of byte values. -/
abbrev GoStr := List Nat

/-- Go's builtin `copy(dest, src)`: overwrites the first
`min (length dest) (length src)` positions of `dest` with the leading
bytes of `src`, keeps the rest of `dest`, and returns the new contents
together with the number of bytes copied. -/
def goCopy (dest src : GoStr) : GoStr × Nat :=
  let n := min dest.length src.length
  (src.take n ++ dest.drop n, n)

namespace Consistenthash

/-- One round of the reflected CRC-32 step: shift right by one and
conditionally xor with the reversed IEEE polynomial `0xEDB88320`. -/
def crc32Round (c : Nat) : Nat :=
  if c % 2 = 1 then (c / 2) ^^^ 0xEDB88320 else c / 2

/-- Fold one input byte into the CRC accumulator (eight shift rounds). -/
def crc32Byte (c b : Nat) : Nat :=
  (List.range 8).foldl (fun acc _ => crc32Round acc) (c ^^^ (b % 256))

/-- `crc32.ChecksumIEEE` from Go's `hash/crc32`: the standard reflected
CRC-32 with initial value and final xor `0xFFFFFFFF`. -/
def crc32 (data : GoStr) : Nat :=
  (data.foldl crc32Byte 0xFFFFFFFF) ^^^ 0xFFFFFFFF

/-- `strconv.Itoa` for a natural number: the ASCII bytes of its decimal
representation. -/
def itoa (n : Nat) : GoStr :=
  (Nat.toDigits 10 n).map Char.toNat

/-- The `Map` struct of package `consistenthash`: the hash function, the
replica count, the sorted list of ring points, and the point-to-peer
mapping (a Go map, modelled as a total function whose default value is
the empty string). -/
structure Map where
  hash : GoStr → Nat
  replicas : Nat
  keys : List Nat
  hashMap : Nat → GoStr

/-- `New(replicas, fn)`: a nil `fn` (here `none`) selects
`crc32.ChecksumIEEE` as the hash function. -/
def New (replicas : Nat) (fn : Option (GoStr → Nat)) : Map :=
  { hash := match fn with
      | some f => f
      | none => crc32
    replicas := replicas
    keys := []
    hashMap := fun _ => [] }

/-- `Map.IsEmpty`: true when no ring points are stored. -/
def Map.IsEmpty (m : Map) : Bool :=
  m.keys.length == 0

/-- The hash value the ring computes for input `s`: the user hash is a
Go `uint32`, so its value is reduced modulo `2^32`. -/
def Map.hashOf (m : Map) (s : GoStr) : Nat :=
  m.hash s % 2 ^ 32

/-- The body of the inner loop of `Map.Add`: append the point
`hash(itoa i ++ key)` and record it in the hash map (a later write
overwrites an earlier one, as in a Go map). -/
def Map.addPoint (m : Map) (key : GoStr) (i : Nat) : Map :=
  let h := m.hashOf (itoa i ++ key)
  { m with
    keys := m.keys ++ [h]
    hashMap := fun x => if x = h then key else m.hashMap x }

/-- The inner loop of `Map.Add` for a single peer `key`: one point per
replica index `i` in `[0, replicas)`. -/
def Map.addKey (m : Map) (key : GoStr) : Map :=
  (List.range m.replicas).foldl (fun acc i => acc.addPoint key i) m

/-- The ring points contributed by peer `key` on a ring whose hash
function is `hash` and whose replica count is `replicas`. -/
def pointsOf (hash : GoStr → Nat) (replicas : Nat) (key : GoStr) : List Nat :=
  (List.range replicas).map fun i => hash (itoa i ++ key) % 2 ^ 32

/-- `Map.Add(keys...)`: add every replica point of every peer, then sort
the point list ascending (`sort.Ints`). -/
def Map.Add (m : Map) (ks : List GoStr) : Map :=
  let m1 := ks.foldl Map.addKey m
  { m1 with keys := m1.keys.insertionSort (· ≤ ·) }

/-- Go's `sort.Search` binary search loop (`for i < j { ... }`),
narrowing on the midpoint.  Every iteration strictly decreases `j - i`,
so running it on a fuel of the initial `j - i` reproduces the loop
exactly; structural recursion on the fuel keeps the function reducible
by evaluation. -/
def sortSearchAux (f : Nat → Bool) : Nat → Nat → Nat → Nat
  | 0, i, _ => i
  | fuel + 1, i, j =>
    if i < j then
      if f ((i + j) / 2) then sortSearchAux f fuel i ((i + j) / 2)
      else sortSearchAux f fuel ((i + j) / 2 + 1) j
    else i

/-- `sort.Search(n, f)`: the loop starts at `i = 0`, `j = n`. -/
def sortSearch (n : Nat) (f : Nat → Bool) : Nat :=
  sortSearchAux f n 0 n

/-- `Map.Get(key)`: empty ring returns the empty string; otherwise
binary-search for the smallest stored point `≥ hash(key)`, wrapping to
index 0 when the search runs off the end. -/
def Map.Get (m : Map) (key : GoStr) : GoStr :=
  if m.IsEmpty then []
  else
    let h := m.hashOf key
    let idx := sortSearch m.keys.length (fun i => decide (h ≤ m.keys.getD i 0))
    let idx := if idx = m.keys.length then 0 else idx
    m.hashMap (m.keys.getD idx 0)

/-- A ring built by `New` followed by a sequence of `Add` calls. -/
def buildRing (replicas : Nat) (fn : Option (GoStr → Nat))
    (batches : List (List GoStr)) : Map :=
  batches.foldl Map.Add (New replicas fn)

end Consistenthash

namespace Lru

/-- The `Cache` struct of package `lru`.  The doubly-linked recency list
`ll` and the key-indexed map `cache` always hold the same entries, so the
pair is modelled as a single front-to-back list of `(key, value)` entries;
`store = none` models the zero value (`ll == nil`, `cache == nil`), which
is also the state after `Clear`. `MaxEntries` is a Go `int`. -/
structure Cache (K V : Type) where
  maxEntries : Int
  store : Option (List (K × V))

/-- `lru.New(maxEntries)`: an initialized empty cache. -/
def New (K V : Type) (maxEntries : Int) : Cache K V :=
  ⟨maxEntries, some []⟩

/-- Lookup in the Go map `c.cache`: the value of the unique entry with
key `k`, if present. -/
def lookup {K V : Type} [DecidableEq K] : List (K × V) → K → Option V
  | [], _ => none
  | (k1, v) :: rest, k => if k1 = k then some v else lookup rest k

/-- Removal of the list node holding key `k` (the first entry with that
key; the cache never holds two entries with the same key). -/
def eraseKey {K V : Type} [DecidableEq K] : List (K × V) → K → List (K × V)
  | [], _ => []
  | (k1, v) :: rest, k => if k1 = k then rest else (k1, v) :: eraseKey rest k

/-- `Cache.RemoveOldest`: a nil cache is a no-op; otherwise remove the
back (oldest) node, if any, and report it to the eviction callback.  Each
operation returns the new cache together with the list of `(key, value)`
pairs passed, in order, to `OnEvicted` during the operation. -/
def Cache.RemoveOldest {K V : Type} (c : Cache K V) :
    Cache K V × List (K × V) :=
  match c.store with
  | none => (c, [])
  | some l =>
    match l.getLast? with
    | none => (c, [])
    | some e => (⟨c.maxEntries, some l.dropLast⟩, [e])

/-- `Cache.Add(key, value)`: lazily initialize a nil cache; on an
existing key move its node to the front and update the value; on a new
key push a node at the front, then evict the oldest entry when a nonzero
`MaxEntries` is exceeded. -/
def Cache.Add {K V : Type} [DecidableEq K] (c : Cache K V) (k : K) (v : V) :
    Cache K V × List (K × V) :=
  let l := c.store.getD []
  match lookup l k with
  | some _ => (⟨c.maxEntries, some ((k, v) :: eraseKey l k)⟩, [])
  | none =>
    let c1 : Cache K V := ⟨c.maxEntries, some ((k, v) :: l)⟩
    if c.maxEntries ≠ 0 ∧ (((k, v) :: l).length : Int) > c.maxEntries then
      c1.RemoveOldest
    else (c1, [])

/-- `Cache.Get(key)`: a nil cache misses; a hit moves the node to the
front of the recency list and returns its value. -/
def Cache.Get {K V : Type} [DecidableEq K] (c : Cache K V) (k : K) :
    Cache K V × Option V :=
  match c.store with
  | none => (c, none)
  | some l =>
    match lookup l k with
    | none => (c, none)
    | some v => (⟨c.maxEntries, some ((k, v) :: eraseKey l k)⟩, some v)

/-- `Cache.Remove(key)`: a nil cache is a no-op; otherwise remove the
node holding `key`, if any, reporting it to the eviction callback. -/
def Cache.Remove {K V : Type} [DecidableEq K] (c : Cache K V) (k : K) :
    Cache K V × List (K × V) :=
  match c.store with
  | none => (c, [])
  | some l =>
    match lookup l k with
    | none => (c, [])
    | some v => (⟨c.maxEntries, some (eraseKey l k)⟩, [(k, v)])

/-- `Cache.Len`: 0 on a nil cache, else the length of the list. -/
def Cache.Len {K V : Type} (c : Cache K V) : Nat :=
  match c.store with
  | none => 0
  | some l => l.length

/-- `Cache.Clear`: report every stored entry to the eviction callback,
then drop the list and the map (back to the nil state). -/
def Cache.Clear {K V : Type} (c : Cache K V) : Cache K V × List (K × V) :=
  (⟨c.maxEntries, none⟩, c.store.getD [])

/-- One cache operation of the `add`/`get`/`remove` interface. -/
inductive Op (K V : Type) where
  | add : K → V → Op K V
  | get : K → Op K V
  | remove : K → Op K V

/-- The state reached after one operation (the eviction report and the
`get` result are dropped). -/
def applyOp {K V : Type} [DecidableEq K] (c : Cache K V) : Op K V → Cache K V
  | .add k v => (c.Add k v).1
  | .get k => (c.Get k).1
  | .remove k => (c.Remove k).1

/-- The state reached after a sequence of operations. -/
def applyOps {K V : Type} [DecidableEq K] (c : Cache K V) (ops : List (Op K V)) :
    Cache K V :=
  ops.foldl applyOp c

/-- Well-formedness of a cache: no key is stored twice (the Go map
`cache` is keyed on the entry key, so this holds for every cache the
code can build). -/
def goodKeys {K V : Type} (c : Cache K V) : Prop :=
  ((c.store.getD []).map Prod.fst).Nodup

end Lru

namespace Groupcache

/-- The `ByteView` struct: if `b` is non-nil (`some`) it is used,
otherwise the string `s` is used. -/
structure ByteView where
  b : Option GoStr
  s : GoStr

/-- `ByteView.Len`. -/
def ByteView.Len (v : ByteView) : Nat :=
  match v.b with
  | some bs => bs.length
  | none => v.s.length

/-- `ByteView.ByteSlice`: the bytes of the view (the Go code returns a
fresh copy; contents are what matters here). -/
def ByteView.ByteSlice (v : ByteView) : GoStr :=
  match v.b with
  | some bs => bs
  | none => v.s

/-- `ByteView.SliceFrom`: the view from index `fromIdx` to the end,
keeping the live representation. -/
def ByteView.SliceFrom (v : ByteView) (fromIdx : Nat) : ByteView :=
  match v.b with
  | some bs => ⟨some (bs.drop fromIdx), []⟩
  | none => ⟨none, v.s.drop fromIdx⟩

/-- `ByteView.Copy(dest)`: copy into `dest`, returning the new contents
of `dest` and the number of bytes copied. -/
def ByteView.Copy (v : ByteView) (dest : GoStr) : GoStr × Nat :=
  match v.b with
  | some bs => goCopy dest bs
  | none => goCopy dest v.s

/-- The errors `ByteView.ReadAt` can return: the
`"view: invalid offset"` error and `io.EOF`. -/
inductive ReadErr where
  | invalidOffset : ReadErr
  | eof : ReadErr
deriving DecidableEq

/-- `ByteView.ReadAt(p, off)`: returns the new contents of `p`, the
count of bytes read, and the error, mirroring the Go control flow. -/
def ByteView.ReadAt (v : ByteView) (p : GoStr) (off : Int) :
    GoStr × Nat × Option ReadErr :=
  if off < 0 then (p, 0, some .invalidOffset)
  else if (v.Len : Int) ≤ off then (p, 0, some .eof)
  else
    let r := (v.SliceFrom off.toNat).Copy p
    (r.1, r.2, if r.2 < p.length then some .eof else none)

/-- The `stringSink` struct: `sp` holds the contents of the caller's
target string `*sp`. -/
structure stringSink where
  sp : GoStr
  v : ByteView

/-- `stringSink.view` (its error is always nil). -/
def stringSink.view (s : stringSink) : ByteView := s.v

/-- `stringSink.SetString`. -/
def stringSink.SetString (s : stringSink) (v : GoStr) : stringSink :=
  ⟨v, ⟨none, v⟩⟩

/-- `stringSink.SetBytes` delegates to `SetString` (`string(v)` has the
same bytes). -/
def stringSink.SetBytes (s : stringSink) (v : GoStr) : stringSink :=
  s.SetString v

/-- `stringSink.SetProto`: marshal `m` (failure = `none`), then store
the encoded bytes in `s.v.b` (leaving `s.v.s` untouched, as the Go code
does) and in the target string. -/
def stringSink.SetProto {M : Type} (marshal : M → Option GoStr)
    (s : stringSink) (m : M) : Option stringSink :=
  match marshal m with
  | none => none
  | some b => some ⟨b, ⟨some b, s.v.s⟩⟩

/-- The `byteViewSink` struct: `dst` holds the contents of the caller's
target `*dst` (the constructor panics on a nil pointer, so the target is
always present). -/
structure byteViewSink where
  dst : ByteView

/-- `byteViewSink.setView` (the fast-path capability). -/
def byteViewSink.setView (s : byteViewSink) (v : ByteView) : byteViewSink :=
  ⟨v⟩

/-- `byteViewSink.view`. -/
def byteViewSink.view (s : byteViewSink) : ByteView := s.dst

/-- `byteViewSink.SetProto`. -/
def byteViewSink.SetProto {M : Type} (marshal : M → Option GoStr)
    (s : byteViewSink) (m : M) : Option byteViewSink :=
  match marshal m with
  | none => none
  | some b => some ⟨⟨some b, []⟩⟩

/-- `byteViewSink.SetBytes` (the Go code stores a clone of `b`; the
contents are the same). -/
def byteViewSink.SetBytes (s : byteViewSink) (b : GoStr) : byteViewSink :=
  ⟨⟨some b, []⟩⟩

/-- `byteViewSink.SetString`. -/
def byteViewSink.SetString (s : byteViewSink) (v : GoStr) : byteViewSink :=
  ⟨⟨none, v⟩⟩

/-- The `protoSink` struct over an abstract message type `M`:
`dst` is the caller's structured-message target. -/
structure protoSink (M : Type) where
  dst : M
  v : ByteView

/-- `protoSink.view`. -/
def protoSink.view {M : Type} (s : protoSink M) : ByteView := s.v

/-- `protoSink.SetBytes`: unmarshal `b` into the target (failure =
`none`), then keep a copy of `b` as the encoded view. -/
def protoSink.SetBytes {M : Type} (unmarshal : GoStr → Option M)
    (s : protoSink M) (b : GoStr) : Option (protoSink M) :=
  match unmarshal b with
  | none => none
  | some m => some ⟨m, ⟨some b, []⟩⟩

/-- `protoSink.SetString`: same as `SetBytes` on the string's bytes. -/
def protoSink.SetString {M : Type} (unmarshal : GoStr → Option M)
    (s : protoSink M) (v : GoStr) : Option (protoSink M) :=
  match unmarshal v with
  | none => none
  | some m => some ⟨m, ⟨some v, []⟩⟩

/-- `protoSink.SetProto`: marshal `m`, unmarshal the encoding into the
target, and keep the encoding as the view. -/
def protoSink.SetProto {M : Type} (marshal : M → Option GoStr)
    (unmarshal : GoStr → Option M) (s : protoSink M) (m : M) :
    Option (protoSink M) :=
  match marshal m with
  | none => none
  | some b =>
    match unmarshal b with
    | none => none
    | some m2 => some ⟨m2, ⟨some b, []⟩⟩

/-- The `allocBytesSink` struct: `dst = none` models a nil
`*[]byte` pointer (the `SinkTargetError` case). -/
structure allocBytesSink where
  dst : Option GoStr
  v : ByteView

/-- `allocBytesSink.view`. -/
def allocBytesSink.view (s : allocBytesSink) : ByteView := s.v

/-- `allocBytesSink.setBytesOwned`: errors on a nil target, otherwise
stores a copy of `b` in the target and `b` itself in the view. -/
def allocBytesSink.setBytesOwned (s : allocBytesSink) (b : GoStr) :
    Option allocBytesSink :=
  match s.dst with
  | none => none
  | some _ => some ⟨some b, ⟨some b, []⟩⟩

/-- `allocBytesSink.SetBytes` (the clone has the same contents). -/
def allocBytesSink.SetBytes (s : allocBytesSink) (b : GoStr) :
    Option allocBytesSink :=
  s.setBytesOwned b

/-- `allocBytesSink.SetProto`. -/
def allocBytesSink.SetProto {M : Type} (marshal : M → Option GoStr)
    (s : allocBytesSink) (m : M) : Option allocBytesSink :=
  match marshal m with
  | none => none
  | some b => s.setBytesOwned b

/-- `allocBytesSink.SetString`. -/
def allocBytesSink.SetString (s : allocBytesSink) (v : GoStr) :
    Option allocBytesSink :=
  match s.dst with
  | none => none
  | some _ => some ⟨some v, ⟨none, v⟩⟩

/-- The `truncBytesSink` struct: `dst = none` models a nil
`*[]byte` pointer. -/
structure truncBytesSink where
  dst : Option GoStr
  v : ByteView

/-- `truncBytesSink.view`. -/
def truncBytesSink.view (s : truncBytesSink) : ByteView := s.v

/-- `truncBytesSink.setBytesOwned`: copy into the fixed-capacity target,
shrinking it when fewer bytes were copied than it could hold. -/
def truncBytesSink.setBytesOwned (s : truncBytesSink) (b : GoStr) :
    Option truncBytesSink :=
  match s.dst with
  | none => none
  | some d =>
    let r := goCopy d b
    let d2 := if r.2 < r.1.length then r.1.take r.2 else r.1
    some ⟨some d2, ⟨some b, []⟩⟩

/-- `truncBytesSink.SetBytes` (the clone has the same contents). -/
def truncBytesSink.SetBytes (s : truncBytesSink) (b : GoStr) :
    Option truncBytesSink :=
  s.setBytesOwned b

/-- `truncBytesSink.SetProto`. -/
def truncBytesSink.SetProto {M : Type} (marshal : M → Option GoStr)
    (s : truncBytesSink) (m : M) : Option truncBytesSink :=
  match marshal m with
  | none => none
  | some b => s.setBytesOwned b

/-- `truncBytesSink.SetString`. -/
def truncBytesSink.SetString (s : truncBytesSink) (v : GoStr) :
    Option truncBytesSink :=
  match s.dst with
  | none => none
  | some d =>
    let r := goCopy d v
    let d2 := if r.2 < r.1.length then r.1.take r.2 else r.1
    some ⟨some d2, ⟨none, v⟩⟩

end Groupcache

namespace Singleflight

/-- The `call` struct: `done` records whether `wg.Done()` has been
executed, `val` the `(value, error)` outcome written by the owner (the
pair is abstracted as a single type `V`). -/
structure Call (V : Type) where
  done : Bool
  val : Option V

/-- The program counter of one thread executing `Group.Do(key, fn)`:

* `atStart k` — before the locked section at the top of `Do`;
* `waiting k cid` — a duplicate caller blocked in `c.wg.Wait()` on call
  record `cid`;
* `running k cid` — the original caller executing `fn()` (the in-flight
  period of the call);
* `afterDone k cid v` — the original caller after `c.val, c.err = fn()`
  and `c.wg.Done()`, before `delete(g.m, key)`;
* `finishedOwner k cid v` — the original caller after the delete,
  returning `v`;
* `finishedWaiter k cid v` — a duplicate caller that woke up and read
  `(c.val, c.err) = v`. -/
inductive PC (K V : Type) where
  | atStart : K → PC K V
  | waiting : K → Nat → PC K V
  | running : K → Nat → PC K V
  | afterDone : K → Nat → V → PC K V
  | finishedOwner : K → Nat → V → PC K V
  | finishedWaiter : K → Nat → V → PC K V

/-- A configuration of the single-flight coordinator: the in-flight map
`g.m` (call records named by their index into `calls`, which also keeps
records already deleted from the map, since waiters may still read
them), and the program counter of every thread. -/
structure Config (K V : Type) where
  flight : K → Option Nat
  calls : List (Call V)
  threads : List (PC K V)

/-- Update of the Go map `g.m` at one key. -/
def updateMap {K : Type} [DecidableEq K] (f : K → Option Nat) (k : K)
    (v : Option Nat) : K → Option Nat :=
  fun x => if x = k then v else f x

/-- The atomic steps of `Group.Do`.  Each mutex-protected region is one
step; `fn()` runs between `register` and `finish`; the write of
`c.val, c.err` and `c.wg.Done()` collapse into `finish` (the `WaitGroup`
guarantees waiters read the fields only after observing `Done`). -/
inductive Step {K V : Type} [DecidableEq K] :
    Config K V → Config K V → Prop where
  | register (cfg : Config K V) (t : Nat) (k : K)
      (ht : cfg.threads[t]? = some (.atStart k))
      (hm : cfg.flight k = none) :
      Step cfg ⟨updateMap cfg.flight k (some cfg.calls.length),
        cfg.calls ++ [⟨false, none⟩],
        cfg.threads.set t (.running k cfg.calls.length)⟩
  | dup (cfg : Config K V) (t : Nat) (k : K) (cid : Nat)
      (ht : cfg.threads[t]? = some (.atStart k))
      (hm : cfg.flight k = some cid) :
      Step cfg ⟨cfg.flight, cfg.calls, cfg.threads.set t (.waiting k cid)⟩
  | finish (cfg : Config K V) (t : Nat) (k : K) (cid : Nat) (v : V)
      (ht : cfg.threads[t]? = some (.running k cid)) :
      Step cfg ⟨cfg.flight, cfg.calls.set cid ⟨true, some v⟩,
        cfg.threads.set t (.afterDone k cid v)⟩
  | unregister (cfg : Config K V) (t : Nat) (k : K) (cid : Nat) (v : V)
      (ht : cfg.threads[t]? = some (.afterDone k cid v)) :
      Step cfg ⟨updateMap cfg.flight k none, cfg.calls,
        cfg.threads.set t (.finishedOwner k cid v)⟩
  | reap (cfg : Config K V) (t : Nat) (k : K) (cid : Nat) (v : V)
      (ht : cfg.threads[t]? = some (.waiting k cid))
      (hc : cfg.calls[cid]? = some ⟨true, some v⟩) :
      Step cfg ⟨cfg.flight, cfg.calls, cfg.threads.set t (.finishedWaiter k cid v)⟩

/-- The initial configuration: an empty map, no call records, and one
thread per requested key, each about to execute `Do`. -/
def init {K V : Type} (ks : List K) : Config K V :=
  ⟨fun _ => none, [], ks.map PC.atStart⟩

/-- The configurations reachable from `init ks` by interleaving steps. -/
def Reachable {K V : Type} [DecidableEq K] (ks : List K)
    (cfg : Config K V) : Prop :=
  Relation.ReflTransGen Step (init ks) cfg

/-- Thread `t` owns call record `cid`: it registered it and has not
ceased to exist (owners never release ownership). -/
def ownerAt {K V : Type} (cfg : Config K V) (t cid : Nat) : Prop :=
  ∃ k, cfg.threads[t]? = some (.running k cid) ∨
    (∃ v, cfg.threads[t]? = some (.afterDone k cid v)) ∨
    (∃ v, cfg.threads[t]? = some (.finishedOwner k cid v))

/-- Thread `t` owns call record `cid` and has produced outcome `v`. -/
def ownerDoneWith {K V : Type} (cfg : Config K V) (t cid : Nat) (v : V) :
    Prop :=
  ∃ k, cfg.threads[t]? = some (.afterDone k cid v) ∨
    cfg.threads[t]? = some (.finishedOwner k cid v)

/-- The inductive invariant of the coordinator:

* call-record names are in range (`ownerBound`, `mapBound`);
* each call record has at most one owner (`ownerUnique`);
* while an owner is running `fn` or has not yet deleted the map entry,
  `g.m` maps its key to its record (`activeMap`);
* a running owner's record is still unwritten (`runningCall`), a
  finished owner's record holds exactly its outcome (`ownerCall`), and
  a released waiter read exactly the record's outcome (`waiterCall`);
* every completed record belongs to an owner whose outcome it holds
  (`doneOwner`). -/
structure Inv {K V : Type} (cfg : Config K V) : Prop where
  ownerBound : ∀ (t cid : Nat), ownerAt cfg t cid → cid < cfg.calls.length
  mapBound : ∀ (k : K) (cid : Nat), cfg.flight k = some cid →
    cid < cfg.calls.length
  ownerUnique : ∀ (t1 t2 cid : Nat), ownerAt cfg t1 cid →
    ownerAt cfg t2 cid → t1 = t2
  activeMap : ∀ (t : Nat) (k : K) (cid : Nat),
    (cfg.threads[t]? = some (PC.running k cid) ∨
      ∃ v, cfg.threads[t]? = some (PC.afterDone k cid v)) →
    cfg.flight k = some cid
  runningCall : ∀ (t : Nat) (k : K) (cid : Nat),
    cfg.threads[t]? = some (PC.running k cid) →
    cfg.calls[cid]? = some ⟨false, none⟩
  ownerCall : ∀ (t cid : Nat) (v : V), ownerDoneWith cfg t cid v →
    cfg.calls[cid]? = some ⟨true, some v⟩
  waiterCall : ∀ (t : Nat) (k : K) (cid : Nat) (v : V),
    cfg.threads[t]? = some (PC.finishedWaiter k cid v) →
    cfg.calls[cid]? = some ⟨true, some v⟩
  doneOwner : ∀ (cid : Nat) (c : Call V), cfg.calls[cid]? = some c →
    c.done = true → ∃ t v, ownerDoneWith cfg t cid v ∧ c.val = some v

end Singleflight

/-! ## Theorems -/

namespace Consistenthash

theorem hashOf_congr {m1 m2 : Map} (h : m1.hash = m2.hash) (s : GoStr) :
    m1.hashOf s = m2.hashOf s := by
  unfold Map.hashOf; rw [h]

theorem addPoint_hash (m : Map) (key : GoStr) (i : Nat) :
    (m.addPoint key i).hash = m.hash := rfl

theorem addPoint_replicas (m : Map) (key : GoStr) (i : Nat) :
    (m.addPoint key i).replicas = m.replicas := rfl

theorem addPoint_keys (m : Map) (key : GoStr) (i : Nat) :
    (m.addPoint key i).keys = m.keys ++ [m.hashOf (itoa i ++ key)] := rfl

theorem foldl_addPoint_hash (key : GoStr) :
    ∀ (is : List Nat) (m : Map),
      (is.foldl (fun acc i => acc.addPoint key i) m).hash = m.hash := by
  intro is
  induction is with
  | nil => intro m; rfl
  | cons i is ih => intro m; simpa [addPoint_hash] using ih (m.addPoint key i)

theorem foldl_addPoint_replicas (key : GoStr) :
    ∀ (is : List Nat) (m : Map),
      (is.foldl (fun acc i => acc.addPoint key i) m).replicas = m.replicas := by
  intro is
  induction is with
  | nil => intro m; rfl
  | cons i is ih => intro m; simpa [addPoint_replicas] using ih (m.addPoint key i)

theorem foldl_addPoint_keys (key : GoStr) :
    ∀ (is : List Nat) (m : Map),
      (is.foldl (fun acc i => acc.addPoint key i) m).keys
        = m.keys ++ is.map (fun i => m.hashOf (itoa i ++ key)) := by
  intro is
  induction is with
  | nil => intro m; simp
  | cons i is ih =>
    intro m
    have hh : (m.addPoint key i).hash = m.hash := rfl
    calc (List.foldl (fun acc i => acc.addPoint key i) (m.addPoint key i) is).keys
        = (m.addPoint key i).keys
            ++ is.map (fun j => (m.addPoint key i).hashOf (itoa j ++ key)) :=
          ih (m.addPoint key i)
      _ = m.keys ++ (i :: is).map (fun j => m.hashOf (itoa j ++ key)) := by
          rw [addPoint_keys,
            List.map_congr_left (fun j _ => hashOf_congr hh (itoa j ++ key))]
          simp

theorem addKey_hash (m : Map) (key : GoStr) : (m.addKey key).hash = m.hash :=
  foldl_addPoint_hash key _ m

theorem addKey_replicas (m : Map) (key : GoStr) :
    (m.addKey key).replicas = m.replicas :=
  foldl_addPoint_replicas key _ m

theorem addKey_keys (m : Map) (key : GoStr) :
    (m.addKey key).keys = m.keys ++ pointsOf m.hash m.replicas key :=
  foldl_addPoint_keys key _ m

theorem foldl_addKey_hash : ∀ (ks : List GoStr) (m : Map),
    (ks.foldl Map.addKey m).hash = m.hash := by
  intro ks
  induction ks with
  | nil => intro m; rfl
  | cons k ks ih => intro m; simpa [addKey_hash] using ih (m.addKey k)

theorem foldl_addKey_replicas : ∀ (ks : List GoStr) (m : Map),
    (ks.foldl Map.addKey m).replicas = m.replicas := by
  intro ks
  induction ks with
  | nil => intro m; rfl
  | cons k ks ih => intro m; simpa [addKey_replicas] using ih (m.addKey k)

theorem foldl_addKey_keys : ∀ (ks : List GoStr) (m : Map),
    (ks.foldl Map.addKey m).keys
      = m.keys ++ ks.flatMap (pointsOf m.hash m.replicas) := by
  intro ks
  induction ks with
  | nil => intro m; simp
  | cons k ks ih =>
    intro m
    calc (List.foldl Map.addKey (m.addKey k) ks).keys
        = (m.addKey k).keys
            ++ ks.flatMap (pointsOf (m.addKey k).hash (m.addKey k).replicas) :=
          ih (m.addKey k)
      _ = m.keys ++ (k :: ks).flatMap (pointsOf m.hash m.replicas) := by
          rw [addKey_keys, addKey_hash, addKey_replicas]
          simp [List.append_assoc]

theorem Add_hash (m : Map) (ks : List GoStr) : (m.Add ks).hash = m.hash :=
  foldl_addKey_hash ks m

theorem Add_replicas (m : Map) (ks : List GoStr) :
    (m.Add ks).replicas = m.replicas :=
  foldl_addKey_replicas ks m

theorem Add_keys_perm (m : Map) (ks : List GoStr) :
    ((m.Add ks).keys).Perm
      (m.keys ++ ks.flatMap (pointsOf m.hash m.replicas)) := by
  unfold Map.Add
  simpa [foldl_addKey_keys ks m] using
    List.perm_insertionSort (· ≤ ·) (ks.foldl Map.addKey m).keys

theorem Add_sorted (m : Map) (ks : List GoStr) :
    ((m.Add ks).keys).Sorted (· ≤ ·) := by
  unfold Map.Add
  exact List.sorted_insertionSort (· ≤ ·) _

theorem buildRing_sorted (replicas : Nat) (fn : Option (GoStr → Nat))
    (batches : List (List GoStr)) :
    ((buildRing replicas fn batches).keys).Sorted (· ≤ ·) := by
  induction batches using List.reverseRecOn with
  | nil => simp [buildRing, New, List.Sorted]
  | append_singleton bs b _ =>
    unfold buildRing
    rw [List.foldl_append]
    exact Add_sorted _ b

theorem sortSearchAux_spec (f : Nat → Bool) (n : Nat)
    (hmono : ∀ a b, a ≤ b → b < n → f a = true → f b = true) :
    ∀ (fuel i j : Nat), j - i ≤ fuel → i ≤ j → j ≤ n →
      (∀ k, k < i → f k = false) → (∀ k, j ≤ k → k < n → f k = true) →
      i ≤ sortSearchAux f fuel i j ∧ sortSearchAux f fuel i j ≤ j ∧
      (∀ k, k < sortSearchAux f fuel i j → f k = false) ∧
      (sortSearchAux f fuel i j < n → f (sortSearchAux f fuel i j) = true) := by
  intro fuel
  induction fuel with
  | zero =>
    intro i j hd hij hjn hlo hhi
    have hji : i = j := by omega
    subst hji
    exact ⟨le_rfl, le_rfl, hlo, fun h => hhi i le_rfl h⟩
  | succ d ih =>
    intro i j hd hij hjn hlo hhi
    rw [sortSearchAux]
    by_cases hij2 : i < j
    · rw [if_pos hij2]
      by_cases hf : f ((i + j) / 2) = true
      · rw [if_pos hf]
        have hmid1 : i ≤ (i + j) / 2 := by omega
        have hmid2 : (i + j) / 2 < j := by omega
        have := ih i ((i + j) / 2) (by omega) hmid1 (by omega) hlo
          (fun k hk1 hk2 => hmono _ _ hk1 hk2 hf)
        exact ⟨this.1, le_trans this.2.1 (le_of_lt hmid2), this.2.2⟩
      · rw [if_neg hf]
        have hmid1 : i ≤ (i + j) / 2 := by omega
        have hmid2 : (i + j) / 2 < j := by omega
        have hlo2 : ∀ k, k < (i + j) / 2 + 1 → f k = false := by
          intro k hk
          by_cases hki : k < i
          · exact hlo k hki
          · cases hfk : f k with
            | false => rfl
            | true =>
              exact absurd (hmono k ((i + j) / 2) (by omega) (by omega) hfk) hf
        have := ih ((i + j) / 2 + 1) j (by omega) (by omega) hjn hlo2 hhi
        exact ⟨le_trans (by omega) this.1, this.2⟩
    · rw [if_neg hij2]
      exact ⟨le_rfl, hij, hlo, fun h => hhi i (by omega) h⟩

theorem sortSearch_spec (n : Nat) (f : Nat → Bool)
    (hmono : ∀ a b, a ≤ b → b < n → f a = true → f b = true) :
    sortSearch n f ≤ n ∧
    (∀ k, k < sortSearch n f → f k = false) ∧
    (sortSearch n f < n → f (sortSearch n f) = true) := by
  have := sortSearchAux_spec f n hmono n 0 n (by omega) (Nat.zero_le n) le_rfl
    (by omega) (by omega)
  exact ⟨this.2.1, this.2.2⟩

theorem keys_pred_mono (l : List Nat) (hs : l.Sorted (· ≤ ·)) (h : Nat) :
    ∀ a b, a ≤ b → b < l.length →
      decide (h ≤ l.getD a 0) = true → decide (h ≤ l.getD b 0) = true := by
  intro a b hab hb hfa
  have ha : a < l.length := lt_of_le_of_lt hab hb
  rw [List.getD_eq_getElem?_getD, List.getElem?_eq_getElem ha] at hfa
  rw [List.getD_eq_getElem?_getD, List.getElem?_eq_getElem hb]
  simp only [Option.getD_some, decide_eq_true_eq] at hfa ⊢
  have hrel : l[a] ≤ l[b] := by
    have := hs.rel_get_of_le (a := ⟨a, ha⟩) (b := ⟨b, hb⟩) (Fin.mk_le_mk.mpr hab)
    simpa [List.get_eq_getElem] using this
  exact le_trans hfa hrel

/-- With the ring nonempty, `Get` returns the peer stored at the point
selected by the binary search (with wrap-around to index 0). -/
theorem Get_eq_of_nonempty (m : Map) (key : GoStr)
    (hne : m.IsEmpty = false) :
    m.Get key =
      m.hashMap (m.keys.getD
        (if sortSearch m.keys.length
            (fun i => decide (m.hashOf key ≤ m.keys.getD i 0))
            = m.keys.length
         then 0
         else sortSearch m.keys.length
            (fun i => decide (m.hashOf key ≤ m.keys.getD i 0))) 0) := by
  unfold Map.Get
  rw [if_neg (by simp [hne])]

end Consistenthash

namespace Lru

theorem store_getD_length {K V : Type} (c : Cache K V) :
    (c.store.getD []).length = c.Len := by
  unfold Cache.Len
  cases c.store <;> rfl

theorem lookup_mem_keys {K V : Type} [DecidableEq K] :
    ∀ (l : List (K × V)) (k : K) (v : V),
      lookup l k = some v → k ∈ l.map Prod.fst := by
  intro l
  induction l with
  | nil => intro k v h; simp [lookup] at h
  | cons e rest ih =>
    intro k v h
    obtain ⟨k1, v1⟩ := e
    simp only [lookup] at h
    by_cases hk : k1 = k
    · simp [hk]
    · rw [if_neg hk] at h
      simp [ih _ _ h]

theorem lookup_eq_none_of_not_mem {K V : Type} [DecidableEq K] :
    ∀ (l : List (K × V)) (k : K), k ∉ l.map Prod.fst → lookup l k = none := by
  intro l
  induction l with
  | nil => intro k _; rfl
  | cons e rest ih =>
    intro k h
    obtain ⟨k1, v1⟩ := e
    simp only [List.map_cons, List.mem_cons, not_or] at h
    simp only [lookup]
    rw [if_neg fun hh => h.1 hh.symm]
    exact ih k h.2

theorem eraseKey_length {K V : Type} [DecidableEq K] :
    ∀ (l : List (K × V)) (k : K) (v : V),
      lookup l k = some v → l.length = (eraseKey l k).length + 1 := by
  intro l
  induction l with
  | nil => intro k v h; simp [lookup] at h
  | cons e rest ih =>
    intro k v h
    obtain ⟨k1, v1⟩ := e
    simp only [lookup] at h
    by_cases hk : k1 = k
    · simp [eraseKey, if_pos hk]
    · rw [if_neg hk] at h
      simp only [eraseKey, if_neg hk, List.length_cons]
      rw [ih _ _ h]

theorem eraseKey_length_le {K V : Type} [DecidableEq K] :
    ∀ (l : List (K × V)) (k : K), (eraseKey l k).length ≤ l.length := by
  intro l
  induction l with
  | nil => intro k; simp [eraseKey]
  | cons e rest ih =>
    intro k
    obtain ⟨k1, v1⟩ := e
    simp only [eraseKey]
    by_cases hk : k1 = k
    · simp [if_pos hk]
    · rw [if_neg hk]
      simp only [List.length_cons]
      exact Nat.succ_le_succ (ih k)

theorem RemoveOldest_maxEntries {K V : Type} (c : Cache K V) :
    (c.RemoveOldest).1.maxEntries = c.maxEntries := by
  unfold Cache.RemoveOldest
  cases c.store with
  | none => rfl
  | some l =>
    dsimp only
    cases l.getLast? with
    | none => rfl
    | some e => rfl

theorem Add_existing {K V : Type} [DecidableEq K] (c : Cache K V) (k : K)
    (v v0 : V) (hold : lookup (c.store.getD []) k = some v0) :
    c.Add k v =
      (⟨c.maxEntries, some ((k, v) :: eraseKey (c.store.getD []) k)⟩, []) := by
  simp only [Cache.Add, hold]

theorem Add_new_no_evict {K V : Type} [DecidableEq K] (c : Cache K V)
    (k : K) (v : V) (hnew : lookup (c.store.getD []) k = none)
    (hcond : c.maxEntries = 0 ∨ (c.Len : Int) + 1 ≤ c.maxEntries) :
    c.Add k v = (⟨c.maxEntries, some ((k, v) :: c.store.getD [])⟩, []) := by
  have hlen := store_getD_length c
  simp only [Cache.Add, hnew]
  rw [if_neg]
  rintro ⟨h1, h2⟩
  simp only [List.length_cons, hlen] at h2
  rcases hcond with h | h
  · exact h1 h
  · push_cast at h2
    omega

theorem Add_new_evict {K V : Type} [DecidableEq K] (c : Cache K V)
    (k : K) (v : V) (hnew : lookup (c.store.getD []) k = none)
    (hne : c.maxEntries ≠ 0) (hover : (c.Len : Int) + 1 > c.maxEntries) :
    c.Add k v =
      (⟨c.maxEntries, some (((k, v) :: c.store.getD []).dropLast)⟩,
        (((k, v) :: c.store.getD []).getLast?).toList) := by
  have hlen := store_getD_length c
  simp only [Cache.Add, hnew]
  rw [if_pos]
  · unfold Cache.RemoveOldest
    dsimp only
    cases hgl : ((k, v) :: c.store.getD []).getLast? with
    | none => simp [List.getLast?_eq_none_iff] at hgl
    | some e => simp [hgl]
  · constructor
    · exact hne
    · simp only [List.length_cons, hlen]
      push_cast
      omega

theorem Add_maxEntries {K V : Type} [DecidableEq K] (c : Cache K V)
    (k : K) (v : V) : (c.Add k v).1.maxEntries = c.maxEntries := by
  cases hold : lookup (c.store.getD []) k with
  | some v0 => rw [Add_existing c k v v0 hold]
  | none =>
    by_cases hc : c.maxEntries ≠ 0 ∧ (c.Len : Int) + 1 > c.maxEntries
    · rw [Add_new_evict c k v hold hc.1 hc.2]
    · rw [Add_new_no_evict c k v hold (by omega)]

theorem Get_maxEntries {K V : Type} [DecidableEq K] (c : Cache K V) (k : K) :
    (c.Get k).1.maxEntries = c.maxEntries := by
  unfold Cache.Get
  cases c.store with
  | none => rfl
  | some l =>
    dsimp only
    cases lookup l k with
    | none => rfl
    | some v => rfl

theorem Remove_maxEntries {K V : Type} [DecidableEq K] (c : Cache K V)
    (k : K) : (c.Remove k).1.maxEntries = c.maxEntries := by
  unfold Cache.Remove
  cases c.store with
  | none => rfl
  | some l =>
    dsimp only
    cases lookup l k with
    | none => rfl
    | some v => rfl

theorem Add_len_le {K V : Type} [DecidableEq K] (c : Cache K V) (k : K)
    (v : V) (hN : 0 < c.maxEntries) (hlen : (c.Len : Int) ≤ c.maxEntries) :
    ((c.Add k v).1.Len : Int) ≤ c.maxEntries := by
  have hsl := store_getD_length c
  cases hold : lookup (c.store.getD []) k with
  | some v0 =>
    rw [Add_existing c k v v0 hold]
    have := eraseKey_length (c.store.getD []) k v0 hold
    show ((((k, v) :: eraseKey (c.store.getD []) k).length : Nat) : Int) ≤ _
    simp only [List.length_cons]
    push_cast
    omega
  | none =>
    by_cases hc : (c.Len : Int) + 1 ≤ c.maxEntries
    · rw [Add_new_no_evict c k v hold (Or.inr hc)]
      show ((((k, v) :: c.store.getD []).length : Nat) : Int) ≤ _
      simp only [List.length_cons, hsl]
      push_cast
      omega
    · rw [Add_new_evict c k v hold (by omega) (by omega)]
      show (((((k, v) :: c.store.getD []).dropLast).length : Nat) : Int) ≤ _
      simp only [List.length_dropLast, List.length_cons, hsl]
      push_cast
      omega

theorem Get_len {K V : Type} [DecidableEq K] (c : Cache K V) (k : K) :
    (c.Get k).1.Len = c.Len := by
  obtain ⟨me, st⟩ := c
  unfold Cache.Get
  cases st with
  | none => rfl
  | some l =>
    dsimp only
    cases hold : lookup l k with
    | none => rfl
    | some v =>
      show ((k, v) :: eraseKey l k).length = l.length
      simp only [List.length_cons]
      rw [eraseKey_length l k v hold]

theorem Remove_len_le {K V : Type} [DecidableEq K] (c : Cache K V) (k : K) :
    (c.Remove k).1.Len ≤ c.Len := by
  obtain ⟨me, st⟩ := c
  unfold Cache.Remove
  cases st with
  | none => exact le_rfl
  | some l =>
    dsimp only
    cases hold : lookup l k with
    | none => exact le_rfl
    | some v =>
      show (eraseKey l k).length ≤ l.length
      exact eraseKey_length_le l k

theorem applyOp_inv {K V : Type} [DecidableEq K] (N : Int) (hN : 0 < N)
    (c : Cache K V) (op : Op K V)
    (h : c.maxEntries = N ∧ (c.Len : Int) ≤ N) :
    (applyOp c op).maxEntries = N ∧ ((applyOp c op).Len : Int) ≤ N := by
  obtain ⟨hmax, hlen⟩ := h
  cases op with
  | add k v =>
    refine ⟨by rw [applyOp, Add_maxEntries, hmax], ?_⟩
    have := Add_len_le c k v (by omega) (by omega)
    rw [applyOp]
    omega
  | get k =>
    refine ⟨by rw [applyOp, Get_maxEntries, hmax], ?_⟩
    rw [applyOp, Get_len]
    exact hlen
  | remove k =>
    refine ⟨by rw [applyOp, Remove_maxEntries, hmax], ?_⟩
    have := Remove_len_le c k
    rw [applyOp]
    omega

theorem applyOps_inv {K V : Type} [DecidableEq K] (N : Int) (hN : 0 < N) :
    ∀ (ops : List (Op K V)) (c : Cache K V),
      c.maxEntries = N ∧ (c.Len : Int) ≤ N →
      (applyOps c ops).maxEntries = N ∧ ((applyOps c ops).Len : Int) ≤ N := by
  intro ops
  induction ops with
  | nil => intro c h; exact h
  | cons op ops ih =>
    intro c h
    exact ih (applyOp c op) (applyOp_inv N hN c op h)

theorem count_eq_zero_of_not_mem_keys {K V : Type} [DecidableEq K]
    [DecidableEq V] (l : List (K × V)) (k : K) (v : V)
    (h : k ∉ l.map Prod.fst) : l.count (k, v) = 0 := by
  rw [List.count_eq_zero]
  intro hmem
  exact h (List.mem_map_of_mem Prod.fst hmem)

theorem count_lookup {K V : Type} [DecidableEq K] [DecidableEq V] :
    ∀ (l : List (K × V)) (k : K) (v : V), (l.map Prod.fst).Nodup →
      l.count (k, v) = if lookup l k = some v then 1 else 0 := by
  intro l
  induction l with
  | nil => intro k v _; simp [lookup]
  | cons e rest ih =>
    intro k v hnd
    obtain ⟨k1, v1⟩ := e
    simp only [List.map_cons, List.nodup_cons] at hnd
    rw [List.count_cons]
    by_cases hk : k1 = k
    · subst hk
      have hnot : lookup rest k1 = none :=
        lookup_eq_none_of_not_mem rest k1 hnd.1
      have hcnt : rest.count (k1, v) = 0 :=
        count_eq_zero_of_not_mem_keys rest k1 v hnd.1
      simp only [lookup, if_pos rfl, hcnt]
      by_cases hv : v1 = v
      · subst hv; simp
      · have hne2 : ((k1, v1) == (k1, v)) = false := by
          apply beq_eq_false_iff_ne.mpr
          intro hcontra
          exact hv (congrArg Prod.snd hcontra)
        rw [hne2]
        simp [hv]
    · simp only [lookup, if_neg hk]
      rw [ih k v hnd.2]
      have hne : ((k1, v1) == (k, v)) = false := by
        apply beq_eq_false_iff_ne.mpr
        intro hcontra
        exact hk (congrArg Prod.fst hcontra)
      rw [hne]
      simp

theorem eraseKey_keys_sublist {K V : Type} [DecidableEq K] :
    ∀ (l : List (K × V)) (k : K),
      ((eraseKey l k).map Prod.fst).Sublist (l.map Prod.fst) := by
  intro l
  induction l with
  | nil => intro k; simp [eraseKey]
  | cons e rest ih =>
    intro k
    obtain ⟨k1, v1⟩ := e
    simp only [eraseKey]
    by_cases hk : k1 = k
    · rw [if_pos hk]
      exact (List.sublist_cons_self k1 (rest.map Prod.fst)).trans
        (List.Sublist.refl _) |>.trans (List.Sublist.refl _)
    · rw [if_neg hk]
      simp only [List.map_cons]
      exact (ih k).cons₂ k1

theorem not_mem_eraseKey_keys {K V : Type} [DecidableEq K] :
    ∀ (l : List (K × V)) (k : K), (l.map Prod.fst).Nodup →
      k ∉ (eraseKey l k).map Prod.fst := by
  intro l
  induction l with
  | nil => intro k _; simp [eraseKey]
  | cons e rest ih =>
    intro k hnd
    obtain ⟨k1, v1⟩ := e
    simp only [List.map_cons, List.nodup_cons] at hnd
    simp only [eraseKey]
    by_cases hk : k1 = k
    · rw [if_pos hk]
      rw [hk] at hnd
      exact hnd.1
    · rw [if_neg hk]
      simp only [List.map_cons, List.mem_cons, not_or]
      exact ⟨fun h => hk h.symm, ih k hnd.2⟩

theorem mem_keys_lookup {K V : Type} [DecidableEq K] :
    ∀ (l : List (K × V)) (k : K), k ∈ l.map Prod.fst →
      ∃ v, lookup l k = some v := by
  intro l
  induction l with
  | nil => intro k h; simp at h
  | cons e rest ih =>
    intro k h
    obtain ⟨k1, v1⟩ := e
    by_cases hk : k1 = k
    · exact ⟨v1, by simp only [lookup, if_pos hk]⟩
    · simp only [List.map_cons, List.mem_cons] at h
      rcases h with h | h
      · exact absurd h.symm hk
      · obtain ⟨v, hv⟩ := ih k h
        exact ⟨v, by simp only [lookup, if_neg hk]; exact hv⟩

theorem goodKeys_applyOp {K V : Type} [DecidableEq K] (c : Cache K V)
    (op : Op K V) (h : goodKeys c) : goodKeys (applyOp c op) := by
  cases op with
  | add k v =>
    show goodKeys (c.Add k v).1
    cases hold : lookup (c.store.getD []) k with
    | some v0 =>
      rw [Add_existing c k v v0 hold]
      unfold goodKeys at h ⊢
      simp only [Option.getD_some, List.map_cons, List.nodup_cons]
      exact ⟨not_mem_eraseKey_keys _ k h,
        (eraseKey_keys_sublist _ k).nodup h⟩
    | none =>
      have hnotmem : k ∉ (c.store.getD []).map Prod.fst := by
        intro hmem
        obtain ⟨v2, hv2⟩ := mem_keys_lookup _ k hmem
        rw [hold] at hv2
        exact Option.noConfusion hv2
      have hcons : (((k, v) :: c.store.getD []).map Prod.fst).Nodup := by
        simp only [List.map_cons, List.nodup_cons]
        exact ⟨hnotmem, h⟩
      by_cases hc : c.maxEntries ≠ 0 ∧ (c.Len : Int) + 1 > c.maxEntries
      · rw [Add_new_evict c k v hold hc.1 hc.2]
        unfold goodKeys
        simp only [Option.getD_some]
        exact ((List.dropLast_sublist _).map Prod.fst).nodup hcons
      · rw [Add_new_no_evict c k v hold (by omega)]
        exact hcons
  | get k =>
    show goodKeys (c.Get k).1
    obtain ⟨me, st⟩ := c
    unfold Cache.Get
    cases st with
    | none => exact h
    | some l =>
      dsimp only
      unfold goodKeys at h
      simp only [Option.getD_some] at h
      cases hold : lookup l k with
      | none => exact h
      | some v =>
        unfold goodKeys
        simp only [Option.getD_some, List.map_cons, List.nodup_cons]
        exact ⟨not_mem_eraseKey_keys l k h,
          (eraseKey_keys_sublist l k).nodup h⟩
  | remove k =>
    show goodKeys (c.Remove k).1
    obtain ⟨me, st⟩ := c
    unfold Cache.Remove
    cases st with
    | none => exact h
    | some l =>
      dsimp only
      unfold goodKeys at h
      simp only [Option.getD_some] at h
      cases hold : lookup l k with
      | none => exact h
      | some v =>
        unfold goodKeys
        simp only [Option.getD_some]
        exact (eraseKey_keys_sublist l k).nodup h

theorem getLast?_cons_ne {α : Type} (a : α) (l : List α) (h : l ≠ []) :
    (a :: l).getLast? = l.getLast? := by
  cases l with
  | nil => exact absurd rfl h
  | cons b m => rfl

end Lru

namespace Groupcache

theorem SliceFrom_Copy_count (v : ByteView) (p : GoStr) (t : Nat) :
    ((v.SliceFrom t).Copy p).2 = min p.length (v.Len - t) := by
  obtain ⟨b, s⟩ := v
  cases b with
  | none => simp [ByteView.SliceFrom, ByteView.Copy, goCopy, ByteView.Len]
  | some bs => simp [ByteView.SliceFrom, ByteView.Copy, goCopy, ByteView.Len]

theorem goCopy_shrink (d b : GoStr) :
    (if (goCopy d b).2 < (goCopy d b).1.length then
      (goCopy d b).1.take (goCopy d b).2
     else (goCopy d b).1) = b.take (min d.length b.length) := by
  unfold goCopy
  dsimp only
  have hmin : min d.length b.length ≤ b.length := min_le_right _ _
  have hlen1 : (b.take (min d.length b.length)).length
      = min d.length b.length := by
    rw [List.length_take]
    omega
  have hlen : (b.take (min d.length b.length)
      ++ d.drop (min d.length b.length)).length
      = min d.length b.length + (d.length - min d.length b.length) := by
    rw [List.length_append, hlen1, List.length_drop]
  by_cases h : min d.length b.length
      < (b.take (min d.length b.length)
          ++ d.drop (min d.length b.length)).length
  · rw [if_pos h]
    exact List.take_left' hlen1
  · rw [if_neg h]
    rw [hlen] at h
    have hdn : d.length ≤ min d.length b.length := by omega
    rw [List.drop_eq_nil_of_le hdn, List.append_nil]

end Groupcache

namespace Singleflight

theorem lt_of_getElem?_some {α : Type} {l : List α} {i : Nat} {a : α}
    (h : l[i]? = some a) : i < l.length := by
  obtain ⟨hlt, _⟩ := List.getElem?_eq_some.mp h
  exact hlt

theorem getElem?_set_self_of_some {α : Type} {l : List α} {i : Nat} {b : α}
    (h : l[i]? = some b) (a : α) : (l.set i a)[i]? = some a := by
  rw [List.getElem?_set_self', h]
  rfl

theorem getElem?_set_inv {α : Type} {l : List α} {i j : Nat} {a p : α}
    (h : (l.set i a)[j]? = some p) :
    (i = j ∧ p = a) ∨ (i ≠ j ∧ l[j]? = some p) := by
  by_cases hij : i = j
  · subst hij
    rw [List.getElem?_set_self'] at h
    cases hb : l[i]? with
    | none => rw [hb] at h; exact absurd h (by simp)
    | some b =>
      rw [hb] at h
      exact Or.inl ⟨rfl, (Option.some.inj h).symm⟩
  · rw [List.getElem?_set_ne hij] at h
    exact Or.inr ⟨hij, h⟩

theorem getElem?_append_left_of_some {α : Type} {l : List α} {i : Nat}
    {c : α} (h : l[i]? = some c) (l2 : List α) : (l ++ l2)[i]? = some c := by
  rw [List.getElem?_append, if_pos (lt_of_getElem?_some h)]
  exact h

theorem ownerAt_congr {K V : Type} {cfg cfg2 : Config K V} {t cid : Nat}
    (h : cfg2.threads[t]? = cfg.threads[t]?) :
    ownerAt cfg2 t cid ↔ ownerAt cfg t cid := by
  unfold ownerAt
  rw [h]

theorem ownerDoneWith_congr {K V : Type} {cfg cfg2 : Config K V}
    {t cid : Nat} {v : V} (h : cfg2.threads[t]? = cfg.threads[t]?) :
    ownerDoneWith cfg2 t cid v ↔ ownerDoneWith cfg t cid v := by
  unfold ownerDoneWith
  rw [h]

theorem inv_init {K V : Type} (ks : List K) : Inv (init (V := V) ks) := by
  have hth : ∀ (t : Nat) (pc : PC K V), (init (V := V) ks).threads[t]? = some pc →
      ∃ k, pc = PC.atStart k := by
    intro t pc h
    simp only [init, List.getElem?_map] at h
    cases hk : ks[t]? with
    | none => rw [hk] at h; exact absurd h (by simp)
    | some k =>
      rw [hk] at h
      simp only [Option.map_some'] at h
      exact ⟨k, (Option.some.inj h).symm⟩
  refine ⟨?_, ?_, ?_, ?_, ?_, ?_, ?_, ?_⟩
  · intro t cid hown
    obtain ⟨k, hpc⟩ := hown
    rcases hpc with h1 | ⟨v, h1⟩ | ⟨v, h1⟩ <;>
      · obtain ⟨k2, he⟩ := hth _ _ h1
        cases he
  · intro k cid h
    exact absurd h (by simp [init])
  · intro t1 t2 cid h1 h2
    obtain ⟨k, hpc⟩ := h1
    rcases hpc with h1 | ⟨v, h1⟩ | ⟨v, h1⟩ <;>
      · obtain ⟨k2, he⟩ := hth _ _ h1
        cases he
  · intro t k cid h
    rcases h with h1 | ⟨v, h1⟩ <;>
      · obtain ⟨k2, he⟩ := hth _ _ h1
        cases he
  · intro t k cid h1
    obtain ⟨k2, he⟩ := hth _ _ h1
    cases he
  · intro t cid v h
    obtain ⟨k, hpc⟩ := h
    rcases hpc with h1 | h1 <;>
      · obtain ⟨k2, he⟩ := hth _ _ h1
        cases he
  · intro t k cid v h1
    obtain ⟨k2, he⟩ := hth _ _ h1
    cases he
  · intro cid c h
    exact absurd h (by simp [init])

theorem inv_step {K V : Type} [DecidableEq K] {c1 c2 : Config K V}
    (hinv : Inv c1) (hstep : Step c1 c2) : Inv c2 := by
  cases hstep with
  | register t0 k0 ht hm =>
    have hown2 : ∀ (t cid : Nat),
        ownerAt ⟨updateMap c1.flight k0 (some c1.calls.length),
          c1.calls ++ [⟨false, none⟩],
          c1.threads.set t0 (PC.running k0 c1.calls.length)⟩ t cid →
        (t = t0 ∧ cid = c1.calls.length) ∨ (t ≠ t0 ∧ ownerAt c1 t cid) := by
      intro t cid h
      obtain ⟨k, hpc⟩ := h
      rcases hpc with h1 | ⟨v, h1⟩ | ⟨v, h1⟩ <;>
        rcases getElem?_set_inv h1 with ⟨heq, hpc2⟩ | ⟨hne, hpc2⟩
      · injection hpc2 with e1 e2
        exact Or.inl ⟨heq.symm, e2⟩
      · exact Or.inr ⟨fun hc => hne hc.symm, ⟨k, Or.inl hpc2⟩⟩
      · cases hpc2
      · exact Or.inr ⟨fun hc => hne hc.symm,
          ⟨k, Or.inr (Or.inl ⟨v, hpc2⟩)⟩⟩
      · cases hpc2
      · exact Or.inr ⟨fun hc => hne hc.symm,
          ⟨k, Or.inr (Or.inr ⟨v, hpc2⟩)⟩⟩
    refine ⟨?_, ?_, ?_, ?_, ?_, ?_, ?_, ?_⟩
    · intro t cid hown
      rcases hown2 t cid hown with ⟨_, hcid⟩ | ⟨_, hold⟩
      · subst hcid
        simp
      · have := hinv.ownerBound t cid hold
        simp only [List.length_append, List.length_cons, List.length_nil]
        omega
    · intro k cid h
      simp only [updateMap] at h
      by_cases hk : k = k0
      · rw [if_pos hk] at h
        cases h
        simp
      · rw [if_neg hk] at h
        have := hinv.mapBound k cid h
        simp only [List.length_append, List.length_cons, List.length_nil]
        omega
    · intro t1 t2 cid h1 h2
      rcases hown2 t1 cid h1 with ⟨he1, hc1⟩ | ⟨hn1, ho1⟩
      · rcases hown2 t2 cid h2 with ⟨he2, _⟩ | ⟨hn2, ho2⟩
        · rw [he1, he2]
        · subst hc1
          have := hinv.ownerBound t2 _ ho2
          omega
      · rcases hown2 t2 cid h2 with ⟨he2, hc2⟩ | ⟨hn2, ho2⟩
        · subst hc2
          have := hinv.ownerBound t1 _ ho1
          omega
        · exact hinv.ownerUnique t1 t2 cid ho1 ho2
    · intro t k cid h
      have hsplit : (t = t0 ∧ k = k0 ∧ cid = c1.calls.length) ∨
          (t ≠ t0 ∧ (c1.threads[t]? = some (PC.running k cid) ∨
            ∃ v, c1.threads[t]? = some (PC.afterDone k cid v))) := by
        rcases h with h1 | ⟨v, h1⟩ <;>
          rcases getElem?_set_inv h1 with ⟨heq, hpc2⟩ | ⟨hne, hpc2⟩
        · injection hpc2 with e1 e2
          exact Or.inl ⟨heq.symm, e1, e2⟩
        · exact Or.inr ⟨fun hc => hne hc.symm, Or.inl hpc2⟩
        · cases hpc2
        · exact Or.inr ⟨fun hc => hne hc.symm, Or.inr ⟨v, hpc2⟩⟩
      rcases hsplit with ⟨_, hk, hcid⟩ | ⟨_, hold⟩
      · subst hk
        subst hcid
        simp [updateMap]
      · have hflight := hinv.activeMap t k cid hold
        simp only [updateMap]
        by_cases hk : k = k0
        · rw [hk] at hflight
          rw [hm] at hflight
          cases hflight
        · rw [if_neg hk]
          exact hflight
    · intro t k cid h
      rcases getElem?_set_inv h with ⟨heq, hpc2⟩ | ⟨hne, hpc2⟩
      · injection hpc2 with e1 e2
        subst e2
        exact List.getElem?_concat_length _ _
      · exact getElem?_append_left_of_some
          (hinv.runningCall t k cid hpc2) _
    · intro t cid v h
      obtain ⟨k, hpc⟩ := h
      rcases hpc with h1 | h1 <;>
        rcases getElem?_set_inv h1 with ⟨heq, hpc2⟩ | ⟨hne, hpc2⟩
      · cases hpc2
      · exact getElem?_append_left_of_some
          (hinv.ownerCall t cid v ⟨k, Or.inl hpc2⟩) _
      · cases hpc2
      · exact getElem?_append_left_of_some
          (hinv.ownerCall t cid v ⟨k, Or.inr hpc2⟩) _
    · intro t k cid v h
      rcases getElem?_set_inv h with ⟨heq, hpc2⟩ | ⟨hne, hpc2⟩
      · cases hpc2
      · exact getElem?_append_left_of_some
          (hinv.waiterCall t k cid v hpc2) _
    · intro cid c h hdone
      by_cases hcid : cid < c1.calls.length
      · rw [List.getElem?_append, if_pos hcid] at h
        obtain ⟨t, v, hodw, hval⟩ := hinv.doneOwner cid c h hdone
        obtain ⟨k, hpc⟩ := hodw
        have hne : t ≠ t0 := by
          intro he
          subst he
          rcases hpc with h1 | h1 <;> (rw [ht] at h1; cases h1)
        refine ⟨t, v, ?_, hval⟩
        have hth2 : (c1.threads.set t0
            (PC.running k0 c1.calls.length))[t]? = c1.threads[t]? :=
          List.getElem?_set_ne (fun hc => hne hc.symm)
        exact ⟨k, by rw [hth2]; exact hpc⟩
      · rw [List.getElem?_append, if_neg hcid] at h
        have hcd : cid ≤ c1.calls.length + 1 := by
          have := lt_of_getElem?_some (l := c1.calls ++ [(⟨false, none⟩ : Call V)]) (by
            rw [List.getElem?_append, if_neg hcid]; exact h)
          simp only [List.length_append, List.length_cons,
            List.length_nil] at this
          omega
        cases hcd2 : cid - c1.calls.length with
        | zero =>
          have : cid = c1.calls.length := by omega
          rw [hcd2] at h
          simp only [List.getElem?_cons_zero] at h
          cases h
          cases hdone
        | succ nn =>
          rw [hcd2] at h
          simp only [List.getElem?_cons_succ, List.getElem?_nil] at h
          cases h
  | dup t0 k0 cid0 ht hm =>
    have hown2 : ∀ (t cid : Nat),
        ownerAt ⟨c1.flight, c1.calls,
          c1.threads.set t0 (PC.waiting k0 cid0)⟩ t cid →
        t ≠ t0 ∧ ownerAt c1 t cid := by
      intro t cid h
      obtain ⟨k, hpc⟩ := h
      rcases hpc with h1 | ⟨v, h1⟩ | ⟨v, h1⟩ <;>
        rcases getElem?_set_inv h1 with ⟨heq, hpc2⟩ | ⟨hne, hpc2⟩
      · cases hpc2
      · exact ⟨fun hc => hne hc.symm, ⟨k, Or.inl hpc2⟩⟩
      · cases hpc2
      · exact ⟨fun hc => hne hc.symm, ⟨k, Or.inr (Or.inl ⟨v, hpc2⟩)⟩⟩
      · cases hpc2
      · exact ⟨fun hc => hne hc.symm, ⟨k, Or.inr (Or.inr ⟨v, hpc2⟩)⟩⟩
    refine ⟨?_, ?_, ?_, ?_, ?_, ?_, ?_, ?_⟩
    · intro t cid hown
      exact hinv.ownerBound t cid (hown2 t cid hown).2
    · intro k cid h
      exact hinv.mapBound k cid h
    · intro t1 t2 cid h1 h2
      exact hinv.ownerUnique t1 t2 cid (hown2 t1 cid h1).2 (hown2 t2 cid h2).2
    · intro t k cid h
      rcases h with h1 | ⟨v, h1⟩ <;>
        rcases getElem?_set_inv h1 with ⟨heq, hpc2⟩ | ⟨hne, hpc2⟩
      · cases hpc2
      · exact hinv.activeMap t k cid (Or.inl hpc2)
      · cases hpc2
      · exact hinv.activeMap t k cid (Or.inr ⟨v, hpc2⟩)
    · intro t k cid h
      rcases getElem?_set_inv h with ⟨heq, hpc2⟩ | ⟨hne, hpc2⟩
      · cases hpc2
      · exact hinv.runningCall t k cid hpc2
    · intro t cid v h
      obtain ⟨k, hpc⟩ := h
      rcases hpc with h1 | h1 <;>
        rcases getElem?_set_inv h1 with ⟨heq, hpc2⟩ | ⟨hne, hpc2⟩
      · cases hpc2
      · exact hinv.ownerCall t cid v ⟨k, Or.inl hpc2⟩
      · cases hpc2
      · exact hinv.ownerCall t cid v ⟨k, Or.inr hpc2⟩
    · intro t k cid v h
      rcases getElem?_set_inv h with ⟨heq, hpc2⟩ | ⟨hne, hpc2⟩
      · cases hpc2
      · exact hinv.waiterCall t k cid v hpc2
    · intro cid c h hdone
      obtain ⟨t, v, hodw, hval⟩ := hinv.doneOwner cid c h hdone
      obtain ⟨k, hpc⟩ := hodw
      have hneq : t ≠ t0 := by
        intro he
        subst he
        rcases hpc with h1 | h1 <;> (rw [ht] at h1; cases h1)
      refine ⟨t, v, ⟨k, ?_⟩, hval⟩
      rw [List.getElem?_set_ne (fun hc => hneq hc.symm)]
      exact hpc
  | finish t0 k0 cid0 v0 ht =>
    have hcall0 : c1.calls[cid0]? = some ⟨false, none⟩ :=
      hinv.runningCall t0 k0 cid0 ht
    have hown_t0 : ownerAt c1 t0 cid0 := ⟨k0, Or.inl ht⟩
    have hown2 : ∀ (t cid : Nat),
        ownerAt ⟨c1.flight, c1.calls.set cid0 ⟨true, some v0⟩,
          c1.threads.set t0 (PC.afterDone k0 cid0 v0)⟩ t cid →
        (t = t0 ∧ cid = cid0) ∨ (t ≠ t0 ∧ ownerAt c1 t cid) := by
      intro t cid h
      obtain ⟨k, hpc⟩ := h
      rcases hpc with h1 | ⟨v, h1⟩ | ⟨v, h1⟩ <;>
        rcases getElem?_set_inv h1 with ⟨heq, hpc2⟩ | ⟨hne, hpc2⟩
      · cases hpc2
      · exact Or.inr ⟨fun hc => hne hc.symm, ⟨k, Or.inl hpc2⟩⟩
      · injection hpc2 with e1 e2 e3
        exact Or.inl ⟨heq.symm, e2⟩
      · exact Or.inr ⟨fun hc => hne hc.symm,
          ⟨k, Or.inr (Or.inl ⟨v, hpc2⟩)⟩⟩
      · cases hpc2
      · exact Or.inr ⟨fun hc => hne hc.symm,
          ⟨k, Or.inr (Or.inr ⟨v, hpc2⟩)⟩⟩
    refine ⟨?_, ?_, ?_, ?_, ?_, ?_, ?_, ?_⟩
    · intro t cid hown
      simp only [List.length_set]
      rcases hown2 t cid hown with ⟨_, hcid⟩ | ⟨_, hold⟩
      · subst hcid
        exact lt_of_getElem?_some hcall0
      · exact hinv.ownerBound t cid hold
    · intro k cid h
      simp only [List.length_set]
      exact hinv.mapBound k cid h
    · intro t1 t2 cid h1 h2
      rcases hown2 t1 cid h1 with ⟨he1, hc1⟩ | ⟨hn1, ho1⟩
      · rcases hown2 t2 cid h2 with ⟨he2, _⟩ | ⟨hn2, ho2⟩
        · rw [he1, he2]
        · rw [hc1] at ho2
          exact absurd (hinv.ownerUnique t2 t0 cid0 ho2 hown_t0) hn2
      · rcases hown2 t2 cid h2 with ⟨he2, hc2⟩ | ⟨hn2, ho2⟩
        · rw [hc2] at ho1
          exact absurd (hinv.ownerUnique t1 t0 cid0 ho1 hown_t0) hn1
        · exact hinv.ownerUnique t1 t2 cid ho1 ho2
    · intro t k cid h
      rcases h with h1 | ⟨v, h1⟩ <;>
        rcases getElem?_set_inv h1 with ⟨heq, hpc2⟩ | ⟨hne, hpc2⟩
      · cases hpc2
      · exact hinv.activeMap t k cid (Or.inl hpc2)
      · injection hpc2 with e1 e2 e3
        rw [e1, e2]
        exact hinv.activeMap t0 k0 cid0 (Or.inl ht)
      · exact hinv.activeMap t k cid (Or.inr ⟨v, hpc2⟩)
    · intro t k cid h
      rcases getElem?_set_inv h with ⟨heq, hpc2⟩ | ⟨hne, hpc2⟩
      · cases hpc2
      · have hr := hinv.runningCall t k cid hpc2
        have hneq : cid ≠ cid0 := by
          intro he
          subst he
          exact (fun hc => hne hc.symm)
            (hinv.ownerUnique t t0 cid ⟨k, Or.inl hpc2⟩ hown_t0)
        rw [List.getElem?_set_ne (fun hc => hneq hc.symm)]
        exact hr
    · intro t cid v h
      obtain ⟨k, hpc⟩ := h
      rcases hpc with h1 | h1 <;>
        rcases getElem?_set_inv h1 with ⟨heq, hpc2⟩ | ⟨hne, hpc2⟩
      · injection hpc2 with e1 e2 e3
        rw [e2, e3]
        exact getElem?_set_self_of_some hcall0 _
      · have ho := hinv.ownerCall t cid v ⟨k, Or.inl hpc2⟩
        have hneq : cid ≠ cid0 := by
          intro he
          subst he
          rw [hcall0] at ho
          cases Option.some.inj ho
        rw [List.getElem?_set_ne (fun hc => hneq hc.symm)]
        exact ho
      · cases hpc2
      · have ho := hinv.ownerCall t cid v ⟨k, Or.inr hpc2⟩
        have hneq : cid ≠ cid0 := by
          intro he
          subst he
          rw [hcall0] at ho
          cases Option.some.inj ho
        rw [List.getElem?_set_ne (fun hc => hneq hc.symm)]
        exact ho
    · intro t k cid v h
      rcases getElem?_set_inv h with ⟨heq, hpc2⟩ | ⟨hne, hpc2⟩
      · cases hpc2
      · have hw := hinv.waiterCall t k cid v hpc2
        have hneq : cid ≠ cid0 := by
          intro he
          subst he
          rw [hcall0] at hw
          cases Option.some.inj hw
        rw [List.getElem?_set_ne (fun hc => hneq hc.symm)]
        exact hw
    · intro cid c h hdone
      by_cases hcid : cid = cid0
      · rw [hcid] at h ⊢
        rw [getElem?_set_self_of_some hcall0 _] at h
        refine ⟨t0, v0, ⟨k0, Or.inl (getElem?_set_self_of_some ht _)⟩, ?_⟩
        rw [← Option.some.inj h]
      · rw [List.getElem?_set_ne (fun hc => hcid hc.symm)] at h
        obtain ⟨t, v, hodw, hval⟩ := hinv.doneOwner cid c h hdone
        obtain ⟨k, hpc⟩ := hodw
        have hneq : t ≠ t0 := by
          intro he
          subst he
          rcases hpc with h1 | h1 <;> (rw [ht] at h1; cases h1)
        refine ⟨t, v, ⟨k, ?_⟩, hval⟩
        rw [List.getElem?_set_ne (fun hc => hneq hc.symm)]
        exact hpc
  | unregister t0 k0 cid0 v0 ht =>
    have hodw0 : ownerDoneWith c1 t0 cid0 v0 := ⟨k0, Or.inl ht⟩
    have hown_t0 : ownerAt c1 t0 cid0 := ⟨k0, Or.inr (Or.inl ⟨v0, ht⟩)⟩
    have hflight0 : c1.flight k0 = some cid0 :=
      hinv.activeMap t0 k0 cid0 (Or.inr ⟨v0, ht⟩)
    have hown2 : ∀ (t cid : Nat),
        ownerAt ⟨updateMap c1.flight k0 none, c1.calls,
          c1.threads.set t0 (PC.finishedOwner k0 cid0 v0)⟩ t cid →
        (t = t0 ∧ cid = cid0) ∨ (t ≠ t0 ∧ ownerAt c1 t cid) := by
      intro t cid h
      obtain ⟨k, hpc⟩ := h
      rcases hpc with h1 | ⟨v, h1⟩ | ⟨v, h1⟩ <;>
        rcases getElem?_set_inv h1 with ⟨heq, hpc2⟩ | ⟨hne, hpc2⟩
      · cases hpc2
      · exact Or.inr ⟨fun hc => hne hc.symm, ⟨k, Or.inl hpc2⟩⟩
      · cases hpc2
      · exact Or.inr ⟨fun hc => hne hc.symm,
          ⟨k, Or.inr (Or.inl ⟨v, hpc2⟩)⟩⟩
      · injection hpc2 with e1 e2 e3
        exact Or.inl ⟨heq.symm, e2⟩
      · exact Or.inr ⟨fun hc => hne hc.symm,
          ⟨k, Or.inr (Or.inr ⟨v, hpc2⟩)⟩⟩
    refine ⟨?_, ?_, ?_, ?_, ?_, ?_, ?_, ?_⟩
    · intro t cid hown
      rcases hown2 t cid hown with ⟨_, hcid⟩ | ⟨_, hold⟩
      · rw [hcid]
        exact hinv.ownerBound t0 cid0 hown_t0
      · exact hinv.ownerBound t cid hold
    · intro k cid h
      simp only [updateMap] at h
      by_cases hk : k = k0
      · rw [if_pos hk] at h
        cases h
      · rw [if_neg hk] at h
        exact hinv.mapBound k cid h
    · intro t1 t2 cid h1 h2
      rcases hown2 t1 cid h1 with ⟨he1, hc1⟩ | ⟨hn1, ho1⟩
      · rcases hown2 t2 cid h2 with ⟨he2, _⟩ | ⟨hn2, ho2⟩
        · rw [he1, he2]
        · rw [hc1] at ho2
          exact absurd (hinv.ownerUnique t2 t0 cid0 ho2 hown_t0) hn2
      · rcases hown2 t2 cid h2 with ⟨he2, hc2⟩ | ⟨hn2, ho2⟩
        · rw [hc2] at ho1
          exact absurd (hinv.ownerUnique t1 t0 cid0 ho1 hown_t0) hn1
        · exact hinv.ownerUnique t1 t2 cid ho1 ho2
    · intro t k cid h
      have hsplit : t ≠ t0 ∧ (c1.threads[t]? = some (PC.running k cid) ∨
          ∃ v, c1.threads[t]? = some (PC.afterDone k cid v)) := by
        rcases h with h1 | ⟨v, h1⟩ <;>
          rcases getElem?_set_inv h1 with ⟨heq, hpc2⟩ | ⟨hne, hpc2⟩
        · cases hpc2
        · exact ⟨fun hc => hne hc.symm, Or.inl hpc2⟩
        · cases hpc2
        · exact ⟨fun hc => hne hc.symm, Or.inr ⟨v, hpc2⟩⟩
      obtain ⟨hneq, hold⟩ := hsplit
      have hflight := hinv.activeMap t k cid hold
      simp only [updateMap]
      by_cases hk : k = k0
      · exfalso
        rw [hk] at hflight
        rw [hflight0] at hflight
        have hcideq : cid0 = cid := Option.some.inj hflight
        have hownt : ownerAt c1 t cid := by
          rcases hold with h1 | ⟨v, h1⟩
          · exact ⟨k, Or.inl h1⟩
          · exact ⟨k, Or.inr (Or.inl ⟨v, h1⟩)⟩
        rw [← hcideq] at hownt
        exact hneq (hinv.ownerUnique t t0 cid0 hownt hown_t0)
      · rw [if_neg hk]
        exact hflight
    · intro t k cid h
      rcases getElem?_set_inv h with ⟨heq, hpc2⟩ | ⟨hne, hpc2⟩
      · cases hpc2
      · exact hinv.runningCall t k cid hpc2
    · intro t cid v h
      obtain ⟨k, hpc⟩ := h
      rcases hpc with h1 | h1 <;>
        rcases getElem?_set_inv h1 with ⟨heq, hpc2⟩ | ⟨hne, hpc2⟩
      · cases hpc2
      · exact hinv.ownerCall t cid v ⟨k, Or.inl hpc2⟩
      · injection hpc2 with e1 e2 e3
        rw [e2, e3]
        exact hinv.ownerCall t0 cid0 v0 hodw0
      · exact hinv.ownerCall t cid v ⟨k, Or.inr hpc2⟩
    · intro t k cid v h
      rcases getElem?_set_inv h with ⟨heq, hpc2⟩ | ⟨hne, hpc2⟩
      · cases hpc2
      · exact hinv.waiterCall t k cid v hpc2
    · intro cid c h hdone
      obtain ⟨t, v, hodw, hval⟩ := hinv.doneOwner cid c h hdone
      obtain ⟨k, hpc⟩ := hodw
      by_cases hteq : t = t0
      · rcases hpc with h1 | h1
        · rw [hteq, ht] at h1
          injection Option.some.inj h1 with e1 e2 e3
          refine ⟨t0, v, ⟨k0, Or.inr ?_⟩, hval⟩
          rw [← e2, ← e3]
          exact getElem?_set_self_of_some ht _
        · rw [hteq, ht] at h1
          cases h1
      · refine ⟨t, v, ⟨k, ?_⟩, hval⟩
        rw [List.getElem?_set_ne (fun hc => hteq hc.symm)]
        exact hpc
  | reap t0 k0 cid0 v0 ht hc =>
    have hown2 : ∀ (t cid : Nat),
        ownerAt ⟨c1.flight, c1.calls,
          c1.threads.set t0 (PC.finishedWaiter k0 cid0 v0)⟩ t cid →
        t ≠ t0 ∧ ownerAt c1 t cid := by
      intro t cid h
      obtain ⟨k, hpc⟩ := h
      rcases hpc with h1 | ⟨v, h1⟩ | ⟨v, h1⟩ <;>
        rcases getElem?_set_inv h1 with ⟨heq, hpc2⟩ | ⟨hne, hpc2⟩
      · cases hpc2
      · exact ⟨fun hcx => hne hcx.symm, ⟨k, Or.inl hpc2⟩⟩
      · cases hpc2
      · exact ⟨fun hcx => hne hcx.symm, ⟨k, Or.inr (Or.inl ⟨v, hpc2⟩)⟩⟩
      · cases hpc2
      · exact ⟨fun hcx => hne hcx.symm, ⟨k, Or.inr (Or.inr ⟨v, hpc2⟩)⟩⟩
    refine ⟨?_, ?_, ?_, ?_, ?_, ?_, ?_, ?_⟩
    · intro t cid hown
      exact hinv.ownerBound t cid (hown2 t cid hown).2
    · intro k cid h
      exact hinv.mapBound k cid h
    · intro t1 t2 cid h1 h2
      exact hinv.ownerUnique t1 t2 cid (hown2 t1 cid h1).2 (hown2 t2 cid h2).2
    · intro t k cid h
      rcases h with h1 | ⟨v, h1⟩ <;>
        rcases getElem?_set_inv h1 with ⟨heq, hpc2⟩ | ⟨hne, hpc2⟩
      · cases hpc2
      · exact hinv.activeMap t k cid (Or.inl hpc2)
      · cases hpc2
      · exact hinv.activeMap t k cid (Or.inr ⟨v, hpc2⟩)
    · intro t k cid h
      rcases getElem?_set_inv h with ⟨heq, hpc2⟩ | ⟨hne, hpc2⟩
      · cases hpc2
      · exact hinv.runningCall t k cid hpc2
    · intro t cid v h
      obtain ⟨k, hpc⟩ := h
      rcases hpc with h1 | h1 <;>
        rcases getElem?_set_inv h1 with ⟨heq, hpc2⟩ | ⟨hne, hpc2⟩
      · cases hpc2
      · exact hinv.ownerCall t cid v ⟨k, Or.inl hpc2⟩
      · cases hpc2
      · exact hinv.ownerCall t cid v ⟨k, Or.inr hpc2⟩
    · intro t k cid v h
      rcases getElem?_set_inv h with ⟨heq, hpc2⟩ | ⟨hne, hpc2⟩
      · injection hpc2 with e1 e2 e3
        subst e2
        subst e3
        exact hc
      · exact hinv.waiterCall t k cid v hpc2
    · intro cid c h hdone
      obtain ⟨t, v, hodw, hval⟩ := hinv.doneOwner cid c h hdone
      obtain ⟨k, hpc⟩ := hodw
      have hneq : t ≠ t0 := by
        intro he
        subst he
        rcases hpc with h1 | h1 <;> (rw [ht] at h1; cases h1)
      refine ⟨t, v, ⟨k, ?_⟩, hval⟩
      rw [List.getElem?_set_ne (fun hcx => hneq hcx.symm)]
      exact hpc

theorem inv_reachable {K V : Type} [DecidableEq K] {ks : List K}
    {cfg : Config K V} (h : Reachable ks cfg) : Inv cfg := by
  unfold Reachable at h
  induction h with
  | refl => exact inv_init ks
  | tail _ hstep ih => exact inv_step ih hstep

end Singleflight

/-! ## Claims -/

/-- Claim C1: for every ring built by `New` and a sequence of `Add`
calls, `Get(k)` on a non-empty ring computes `h = hash(k)` and returns
the peer stored at the smallest stored point whose value is `≥ h`; if no
stored point is `≥ h` it returns the peer at the first (smallest) point;
`Get` on an empty ring returns the empty-string sentinel. -/
theorem consistenthash_get_spec
    (replicas : Nat) (fn : Option (GoStr → Nat))
    (batches : List (List GoStr)) (k : GoStr) (m : Consistenthash.Map)
    (hm : m = Consistenthash.buildRing replicas fn batches) :
    (m.IsEmpty = true → m.Get k = []) ∧
    (m.IsEmpty = false →
      ((∃ p ∈ m.keys, m.hashOf k ≤ p) →
        ∃ p, p ∈ m.keys ∧ m.hashOf k ≤ p ∧
          (∀ q ∈ m.keys, m.hashOf k ≤ q → p ≤ q) ∧
          m.Get k = m.hashMap p) ∧
      ((∀ p ∈ m.keys, p < m.hashOf k) →
        ∃ p, p ∈ m.keys ∧ (∀ q ∈ m.keys, p ≤ q) ∧
          m.Get k = m.hashMap p)) := by
  have hs : m.keys.Sorted (· ≤ ·) := by
    rw [hm]; exact Consistenthash.buildRing_sorted replicas fn batches
  constructor
  · intro hemp
    unfold Consistenthash.Map.Get
    rw [if_pos (by simp [hemp])]
  · intro hne
    have hn : 0 < m.keys.length := by
      rcases Nat.eq_zero_or_pos m.keys.length with h0 | h0
      · unfold Consistenthash.Map.IsEmpty at hne
        rw [h0] at hne
        simp at hne
      · exact h0
    set n := m.keys.length with hn_def
    set f : Nat → Bool := fun i => decide (m.hashOf k ≤ m.keys.getD i 0)
      with hf_def
    have hmono := Consistenthash.keys_pred_mono m.keys hs (m.hashOf k)
    have hspec := Consistenthash.sortSearch_spec n f hmono
    set r := Consistenthash.sortSearch n f with hr_def
    have hGet := Consistenthash.Get_eq_of_nonempty m k hne
    rw [← hf_def, ← hn_def, ← hr_def] at hGet
    constructor
    · intro hex
      obtain ⟨p, hp, hple⟩ := hex
      obtain ⟨ip, hip, hipe⟩ := List.mem_iff_getElem.mp hp
      have hfip : f ip = true := by
        rw [hf_def]
        simp only [List.getD_eq_getElem?_getD, List.getElem?_eq_getElem hip,
          Option.getD_some, decide_eq_true_eq]
        rw [hipe]; exact hple
      have hrn : r ≠ n := by
        intro hrn
        have := hspec.2.1 ip (by omega)
        rw [this] at hfip
        exact Bool.false_ne_true hfip
      have hrlt : r < n := lt_of_le_of_ne hspec.1 hrn
      have hfr : f r = true := hspec.2.2 hrlt
      have hfr2 : m.hashOf k ≤ m.keys[r] := by
        rw [hf_def] at hfr
        simpa only [List.getD_eq_getElem?_getD, List.getElem?_eq_getElem hrlt,
          Option.getD_some, decide_eq_true_eq] using hfr
      refine ⟨m.keys[r], List.getElem_mem hrlt, hfr2, ?_, ?_⟩
      · intro q hq hqle
        obtain ⟨iq, hiq, hiqe⟩ := List.mem_iff_getElem.mp hq
        rcases Nat.lt_or_ge iq r with hlt | hge
        · exfalso
          have hfq : f iq = false := hspec.2.1 iq hlt
          rw [hf_def] at hfq
          simp only [List.getD_eq_getElem?_getD, List.getElem?_eq_getElem hiq,
            Option.getD_some, decide_eq_false_iff_not] at hfq
          rw [hiqe] at hfq
          exact hfq hqle
        · have := hs.rel_get_of_le (a := ⟨r, hrlt⟩) (b := ⟨iq, hiq⟩)
            (Fin.mk_le_mk.mpr hge)
          rw [← hiqe]
          simpa [List.get_eq_getElem] using this
      · rw [hGet, if_neg hrn, List.getD_eq_getElem?_getD,
          List.getElem?_eq_getElem hrlt, Option.getD_some]
    · intro hall
      have hrn : r = n := by
        rcases lt_or_eq_of_le hspec.1 with hlt | heq
        · exfalso
          have hfr := hspec.2.2 hlt
          rw [hf_def] at hfr
          simp only [List.getD_eq_getElem?_getD, List.getElem?_eq_getElem hlt,
            Option.getD_some, decide_eq_true_eq] at hfr
          exact absurd hfr (not_le_of_lt (hall _ (List.getElem_mem hlt)))
        · exact heq
      refine ⟨m.keys[0], List.getElem_mem hn, ?_, ?_⟩
      · intro q hq
        obtain ⟨iq, hiq, hiqe⟩ := List.mem_iff_getElem.mp hq
        have := hs.rel_get_of_le (a := ⟨0, hn⟩) (b := ⟨iq, hiq⟩)
          (Fin.mk_le_mk.mpr (Nat.zero_le iq))
        rw [← hiqe]
        simpa [List.get_eq_getElem] using this
      · rw [hGet, if_pos hrn, List.getD_eq_getElem?_getD,
          List.getElem?_eq_getElem hn, Option.getD_some]

/-- Witness for C1 at a concrete ring: one peer `"2"` with one replica
under the default CRC32 hash, queried with the key `"2"`. -/
theorem consistenthash_get_spec_witness :
    ∃ p, p ∈ (Consistenthash.buildRing 1 none [[[50]]]).keys ∧
      (Consistenthash.buildRing 1 none [[[50]]]).hashOf [50] ≤ p ∧
      (∀ q ∈ (Consistenthash.buildRing 1 none [[[50]]]).keys,
        (Consistenthash.buildRing 1 none [[[50]]]).hashOf [50] ≤ q → p ≤ q) ∧
      (Consistenthash.buildRing 1 none [[[50]]]).Get [50] =
        (Consistenthash.buildRing 1 none [[[50]]]).hashMap p :=
  ((consistenthash_get_spec 1 none [[[50]]] [50] _ rfl).2 (by decide)).1
    (by decide)

/-- Claim C5: each peer added by `Add` contributes exactly `replicas`
points, placed at `hash(itoa i ++ p)` for `i` in `[0, replicas)`, and
after `Add` the stored point list is sorted ascending. -/
theorem ring_add_points_sorted (m : Consistenthash.Map)
    (ks : List GoStr) :
    ((m.Add ks).keys).Perm
      (m.keys ++ ks.flatMap (Consistenthash.pointsOf m.hash m.replicas)) ∧
    ((m.Add ks).keys).Sorted (· ≤ ·) :=
  ⟨Consistenthash.Add_keys_perm m ks, Consistenthash.Add_sorted m ks⟩

/-- Counterexample to claim C6: on the ring with `replicas = 3`, the
default CRC32 hash and peers `"6"`, `"4"`, `"2"` (bytes `[54]`, `[52]`,
`[50]`), `Get("2")` returns `"6"`, not `"2"` as the claim states (the
claimed outputs belong to a custom decimal hash, not to CRC32). -/
theorem ring_crc32_scenario_counterexample :
    ¬ ((Consistenthash.buildRing 3 none [[[54], [52], [50]]]).Get [50]
        = [50] ∧
       (Consistenthash.buildRing 3 none [[[54], [52], [50]]]).Get [49, 49]
        = [50] ∧
       (Consistenthash.buildRing 3 none [[[54], [52], [50]]]).Get [50, 51]
        = [52] ∧
       (Consistenthash.buildRing 3 none [[[54], [52], [50]]]).Get [50, 55]
        = [50]) := by
  decide

/-- Claim C6 as amended: with `replicas = 3`, the default CRC32 hash and
peers `"6"`, `"4"`, `"2"`, all of `Get("2")`, `Get("11")`, `Get("23")`
and `Get("27")` return `"6"` (byte string `[54]`). -/
theorem ring_crc32_scenario :
    (Consistenthash.buildRing 3 none [[[54], [52], [50]]]).Get [50]
      = [54] ∧
    (Consistenthash.buildRing 3 none [[[54], [52], [50]]]).Get [49, 49]
      = [54] ∧
    (Consistenthash.buildRing 3 none [[[54], [52], [50]]]).Get [50, 51]
      = [54] ∧
    (Consistenthash.buildRing 3 none [[[54], [52], [50]]]).Get [50, 55]
      = [54] := by
  decide

/-- Claim C2: with `max_entries = N > 0`, `len() ≤ N` holds after every
sequence of `add`/`get`/`remove` operations; `add` of a new key inserts
it at the front and, when the length then exceeds `N`, removes the back
(oldest) entry; `max_entries == 0` disables capacity-triggered
eviction. -/
theorem lru_capacity_bound (K V : Type) [DecidableEq K] (N : Int)
    (hN : 0 < N) (ops : List (Lru.Op K V)) (c : Lru.Cache K V)
    (k : K) (v : V) :
    ((Lru.applyOps (Lru.New K V N) ops).Len : Int) ≤ N ∧
    (c.maxEntries = N → Lru.lookup (c.store.getD []) k = none →
      (((c.Len : Int) + 1 ≤ N →
        c.Add k v = (⟨N, some ((k, v) :: c.store.getD [])⟩, [])) ∧
       ((c.Len : Int) + 1 > N →
        c.Add k v = (⟨N, some ((k, v) :: (c.store.getD []).dropLast)⟩,
          ((c.store.getD []).getLast?).toList)))) ∧
    (∀ c2 : Lru.Cache K V, c2.maxEntries = 0 → (c2.Add k v).2 = []) := by
  refine ⟨?_, ?_, ?_⟩
  · have h0 : (Lru.New K V N).Len = 0 := rfl
    refine (Lru.applyOps_inv N hN ops (Lru.New K V N) ⟨rfl, ?_⟩).2
    rw [h0]
    omega
  · intro hmax hnew
    constructor
    · intro hle
      rw [Lru.Add_new_no_evict c k v hnew (Or.inr (by omega)), hmax]
    · intro hover
      have hlen := Lru.store_getD_length c
      have hne : c.store.getD [] ≠ [] := by
        intro h0
        rw [h0] at hlen
        simp only [List.length_nil] at hlen
        omega
      rw [Lru.Add_new_evict c k v hnew (by omega) (by omega), hmax,
        List.dropLast_cons_of_ne_nil hne, Lru.getLast?_cons_ne _ _ hne]
  · intro c2 h0
    cases hold : Lru.lookup (c2.store.getD []) k with
    | some v0 => rw [Lru.Add_existing c2 k v v0 hold]
    | none => rw [Lru.Add_new_no_evict c2 k v hold (Or.inl h0)]

/-- Witness for C2 at a concrete run: capacity 1, two inserts. -/
theorem lru_capacity_bound_witness :
    ((Lru.applyOps (Lru.New Nat Nat 1)
      [Lru.Op.add 0 5, Lru.Op.add 1 6]).Len : Int) ≤ 1 :=
  (lru_capacity_bound Nat Nat 1 (by decide)
    [Lru.Op.add 0 5, Lru.Op.add 1 6] (Lru.New Nat Nat 1) 0 5).1

/-- Claim C7: in a cache with `max_entries = 2`, after
`add("a",1); add("b",2); get("a"); add("c",3)` the key `"b"` has been
evicted (the capacity eviction reports `("b", 2)`), while `get("a")`
returns 1 and `get("c")` returns 3.  Keys are byte strings
(`"a" = [97]`, `"b" = [98]`, `"c" = [99]`). -/
theorem lru_recency_scenario :
    (((Lru.applyOps (Lru.New GoStr Nat 2)
        [Lru.Op.add [97] 1, Lru.Op.add [98] 2, Lru.Op.get [97]]).Add [99] 3).2
      = [([98], 2)]) ∧
    ((Lru.applyOps (Lru.New GoStr Nat 2)
        [Lru.Op.add [97] 1, Lru.Op.add [98] 2, Lru.Op.get [97],
         Lru.Op.add [99] 3]).Get [98]).2 = none ∧
    (((Lru.applyOps (Lru.New GoStr Nat 2)
        [Lru.Op.add [97] 1, Lru.Op.add [98] 2, Lru.Op.get [97],
         Lru.Op.add [99] 3]).Get [98]).1.Get [97]).2 = some 1 ∧
    ((((Lru.applyOps (Lru.New GoStr Nat 2)
        [Lru.Op.add [97] 1, Lru.Op.add [98] 2, Lru.Op.get [97],
         Lru.Op.add [99] 3]).Get [98]).1.Get [97]).1.Get [99]).2 = some 3 := by
  decide

/-- Claim C8: the eviction callback fires exactly once per evicted
entry, synchronously within the operation that removes it (`Remove`,
`RemoveOldest`, or the capacity eviction inside `Add`; the second
component of each operation's result lists the `OnEvicted` calls it
makes, in order), and `Clear` invokes the callback once for every entry
still stored before releasing the storage. -/
theorem lru_eviction_callback_exact (K V : Type) [DecidableEq K]
    [DecidableEq V] (c : Lru.Cache K V) (k : K) (v : V) :
    (∀ l val, c.store = some l → Lru.lookup l k = some val →
      c.Remove k = (⟨c.maxEntries, some (Lru.eraseKey l k)⟩, [(k, val)])) ∧
    (∀ l e, c.store = some l → l.getLast? = some e →
      c.RemoveOldest = (⟨c.maxEntries, some l.dropLast⟩, [e])) ∧
    (Lru.lookup (c.store.getD []) k = none → c.maxEntries ≠ 0 →
      (c.Len : Int) + 1 > c.maxEntries →
      (c.Add k v).2 = (((k, v) :: c.store.getD []).getLast?).toList) ∧
    (Lru.lookup (c.store.getD []) k = none →
      (c.maxEntries = 0 ∨ (c.Len : Int) + 1 ≤ c.maxEntries) →
      (c.Add k v).2 = []) ∧
    (∀ v0, Lru.lookup (c.store.getD []) k = some v0 → (c.Add k v).2 = []) ∧
    (Lru.goodKeys c →
      (c.Clear).2.count (k, v)
        = (if Lru.lookup (c.store.getD []) k = some v then 1 else 0) ∧
      (c.Clear).1.store = none) := by
  refine ⟨?_, ?_, ?_, ?_, ?_, ?_⟩
  · intro l val hst hlk
    simp only [Lru.Cache.Remove, hst, hlk]
  · intro l e hst hgl
    simp only [Lru.Cache.RemoveOldest, hst, hgl]
  · intro hnew hne hover
    rw [Lru.Add_new_evict c k v hnew hne hover]
  · intro hnew hcond
    rw [Lru.Add_new_no_evict c k v hnew hcond]
  · intro v0 hold
    rw [Lru.Add_existing c k v v0 hold]
  · intro hgood
    exact ⟨Lru.count_lookup _ k v hgood, rfl⟩

/-- Witness for C8: `Clear` on a concrete two-entry cache reports the
entry `(1, 10)` exactly once. -/
theorem lru_eviction_callback_exact_witness :
    ((Lru.Cache.Clear (⟨2, some [(1, 10), (0, 20)]⟩ : Lru.Cache Nat Nat)).2.count
        (1, 10)
      = (if Lru.lookup
            ((⟨2, some [(1, 10), (0, 20)]⟩ : Lru.Cache Nat Nat).store.getD [])
            1 = some 10
         then 1 else 0) ∧
     (Lru.Cache.Clear
        (⟨2, some [(1, 10), (0, 20)]⟩ : Lru.Cache Nat Nat)).1.store = none) :=
  (lru_eviction_callback_exact Nat Nat ⟨2, some [(1, 10), (0, 20)]⟩ 1
    10).2.2.2.2.2 (by unfold Lru.goodKeys; decide)

/-- Claim C10: every operation is total on a cache whose storage is
uninitialized (the zero value, or any cache after `Clear`): `Get`
misses, `Remove` and `RemoveOldest` are no-ops, `Len` is 0, and `Add`
lazily initializes the storage before inserting. -/
theorem lru_zero_value_total (K V : Type) [DecidableEq K] (n : Int)
    (k : K) (v : V) (c : Lru.Cache K V) :
    (Lru.Cache.Get (⟨n, none⟩ : Lru.Cache K V) k = (⟨n, none⟩, none)) ∧
    (Lru.Cache.Remove (⟨n, none⟩ : Lru.Cache K V) k = (⟨n, none⟩, [])) ∧
    (Lru.Cache.RemoveOldest (⟨n, none⟩ : Lru.Cache K V) = (⟨n, none⟩, [])) ∧
    (Lru.Cache.Len (⟨n, none⟩ : Lru.Cache K V) = 0) ∧
    ((Lru.Cache.Add (⟨n, none⟩ : Lru.Cache K V) k v).1.store.isSome
      = true) ∧
    (0 ≤ n →
      (Lru.Cache.Add (⟨n, none⟩ : Lru.Cache K V) k v).1.store
        = some [(k, v)]) ∧
    ((c.Clear).1.store = none) := by
  refine ⟨rfl, rfl, rfl, rfl, ?_, ?_, rfl⟩
  · cases hold : Lru.lookup (((⟨n, none⟩ : Lru.Cache K V)).store.getD []) k with
    | some v0 => exact absurd hold (by simp [Lru.lookup])
    | none =>
      by_cases hc : n ≠ 0 ∧ (1 : Int) > n
      · rw [Lru.Add_new_evict ⟨n, none⟩ k v hold hc.1
          (by show ((0 : Nat) : Int) + 1 > n; omega)]
        rfl
      · rw [Lru.Add_new_no_evict ⟨n, none⟩ k v hold
          (by show n = 0 ∨ ((0 : Nat) : Int) + 1 ≤ n; omega)]
        rfl
  · intro hn
    rw [Lru.Add_new_no_evict ⟨n, none⟩ k v (by simp [Lru.lookup])
      (by show n = 0 ∨ ((0 : Nat) : Int) + 1 ≤ n; omega)]
    rfl

/-- Witness for C10: `Add` on the zero-value cache with capacity 0
initializes the storage and inserts the entry. -/
theorem lru_zero_value_total_witness :
    (Lru.Cache.Add (⟨0, none⟩ : Lru.Cache Nat Nat) 7 8).1.store
      = some [(7, 8)] :=
  (lru_zero_value_total Nat Nat 0 7 8 ⟨3, some [(2, 2)]⟩).2.2.2.2.2.1
    (by decide)

/-- Claim C9: `ReadAt(p, off)` returns an error with zero bytes read for
a negative offset; end-of-stream with zero bytes read at or beyond the
view's length; and when fewer than `len(p)` bytes are copied it signals
end-of-stream alongside the count of bytes actually read. -/
theorem byteview_readAt_errors (v : Groupcache.ByteView) (p : GoStr)
    (off : Int) :
    (off < 0 →
      v.ReadAt p off = (p, 0, some Groupcache.ReadErr.invalidOffset)) ∧
    (0 ≤ off → (v.Len : Int) ≤ off →
      v.ReadAt p off = (p, 0, some Groupcache.ReadErr.eof)) ∧
    (0 ≤ off → off < (v.Len : Int) →
      (v.ReadAt p off).2.1 = min p.length (v.Len - off.toNat) ∧
      ((v.ReadAt p off).2.1 < p.length →
        (v.ReadAt p off).2.2 = some Groupcache.ReadErr.eof) ∧
      (p.length ≤ (v.ReadAt p off).2.1 →
        (v.ReadAt p off).2.2 = none)) := by
  refine ⟨?_, ?_, ?_⟩
  · intro h
    unfold Groupcache.ByteView.ReadAt
    rw [if_pos h]
  · intro h1 h2
    unfold Groupcache.ByteView.ReadAt
    rw [if_neg (not_lt.mpr h1), if_pos h2]
  · intro h1 h2
    unfold Groupcache.ByteView.ReadAt
    rw [if_neg (not_lt.mpr h1), if_neg (not_le.mpr h2)]
    dsimp only
    refine ⟨Groupcache.SliceFrom_Copy_count v p off.toNat, ?_, ?_⟩
    · intro h
      rw [if_pos h]
    · intro h
      rw [if_neg (not_lt.mpr h)]

/-- Witness for C9: a three-byte view read at offsets `-1`, `3`, and `1`
with a two-byte buffer. -/
theorem byteview_readAt_errors_witness :
    (Groupcache.ByteView.ReadAt ⟨some [1, 2, 3], []⟩ [0, 0] (-1)
      = ([0, 0], 0, some Groupcache.ReadErr.invalidOffset)) ∧
    (Groupcache.ByteView.ReadAt ⟨some [1, 2, 3], []⟩ [0, 0] 3
      = ([0, 0], 0, some Groupcache.ReadErr.eof)) ∧
    ((Groupcache.ByteView.ReadAt ⟨some [1, 2, 3], []⟩ [0, 0, 0] 1).2.1
      = min 3 ((⟨some [1, 2, 3], []⟩ : Groupcache.ByteView).Len - 1) ∧
     (Groupcache.ByteView.ReadAt ⟨some [1, 2, 3], []⟩ [0, 0, 0] 1).2.2
      = some Groupcache.ReadErr.eof) :=
  ⟨(byteview_readAt_errors ⟨some [1, 2, 3], []⟩ [0, 0] (-1)).1 (by decide),
   (byteview_readAt_errors ⟨some [1, 2, 3], []⟩ [0, 0] 3).2.1 (by decide)
     (by decide),
   ((byteview_readAt_errors ⟨some [1, 2, 3], []⟩ [0, 0, 0] 1).2.2 (by decide)
     (by decide)).1,
   ((byteview_readAt_errors ⟨some [1, 2, 3], []⟩ [0, 0, 0] 1).2.2 (by decide)
     (by decide)).2.1 (by decide)⟩

/-- Claim C4: for every sink variant and every successful
`SetString`/`SetBytes`/`SetProto` call, `view()` afterwards returns a
ByteView whose contents equal the contents observable through the
caller's target location — the target string for the string sink, the
target ByteView for the ByteView sink, the decoded message for the
structured-message sink, the allocated byte slice for the
allocating-bytes sink — except that the truncating variant's target may
hold only a prefix (`List.take`) of the view's contents. -/
theorem sink_view_matches_target (M : Type) (marshal : M → Option GoStr)
    (unmarshal : GoStr → Option M) (ss : Groupcache.stringSink)
    (bv : Groupcache.byteViewSink) (ps : Groupcache.protoSink M)
    (al : Groupcache.allocBytesSink) (tr : Groupcache.truncBytesSink)
    (str b : GoStr) (m : M) :
    (((ss.SetString str).view).ByteSlice = (ss.SetString str).sp ∧
     ((ss.SetBytes b).view).ByteSlice = (ss.SetBytes b).sp ∧
     (∀ s2, ss.SetProto marshal m = some s2 →
       (s2.view).ByteSlice = s2.sp)) ∧
    (((bv.SetString str).view).ByteSlice
        = ((bv.SetString str).dst).ByteSlice ∧
     ((bv.SetBytes b).view).ByteSlice = ((bv.SetBytes b).dst).ByteSlice ∧
     (∀ s2, bv.SetProto marshal m = some s2 →
       (s2.view).ByteSlice = (s2.dst).ByteSlice)) ∧
    ((∀ s2, Groupcache.protoSink.SetBytes unmarshal ps b = some s2 →
       (s2.view).ByteSlice = b ∧ unmarshal b = some s2.dst) ∧
     (∀ s2, Groupcache.protoSink.SetString unmarshal ps str = some s2 →
       (s2.view).ByteSlice = str ∧ unmarshal str = some s2.dst) ∧
     (∀ s2, Groupcache.protoSink.SetProto marshal unmarshal ps m = some s2 →
       ∃ b2, marshal m = some b2 ∧ (s2.view).ByteSlice = b2 ∧
         unmarshal b2 = some s2.dst)) ∧
    ((∀ s2, al.SetString str = some s2 →
       s2.dst = some ((s2.view).ByteSlice)) ∧
     (∀ s2, al.SetBytes b = some s2 →
       s2.dst = some ((s2.view).ByteSlice)) ∧
     (∀ s2, al.SetProto marshal m = some s2 →
       s2.dst = some ((s2.view).ByteSlice))) ∧
    ((∀ s2, tr.SetString str = some s2 →
       (s2.view).ByteSlice = str ∧
       ∃ n, s2.dst = some (((s2.view).ByteSlice).take n)) ∧
     (∀ s2, tr.SetBytes b = some s2 →
       (s2.view).ByteSlice = b ∧
       ∃ n, s2.dst = some (((s2.view).ByteSlice).take n)) ∧
     (∀ s2, tr.SetProto marshal m = some s2 →
       ∃ b2, marshal m = some b2 ∧ (s2.view).ByteSlice = b2 ∧
         ∃ n, s2.dst = some (((s2.view).ByteSlice).take n))) := by
  refine ⟨⟨rfl, rfl, ?_⟩, ⟨rfl, rfl, ?_⟩, ⟨?_, ?_, ?_⟩, ⟨?_, ?_, ?_⟩,
    ⟨?_, ?_, ?_⟩⟩
  · intro s2 h
    cases hm : marshal m with
    | none => rw [Groupcache.stringSink.SetProto, hm] at h; exact absurd h (by simp)
    | some b2 =>
      rw [Groupcache.stringSink.SetProto, hm] at h
      cases h
      rfl
  · intro s2 h
    cases hm : marshal m with
    | none => rw [Groupcache.byteViewSink.SetProto, hm] at h; exact absurd h (by simp)
    | some b2 =>
      rw [Groupcache.byteViewSink.SetProto, hm] at h
      cases h
      rfl
  · intro s2 h
    cases hu : unmarshal b with
    | none => rw [Groupcache.protoSink.SetBytes, hu] at h; exact absurd h (by simp)
    | some m2 =>
      rw [Groupcache.protoSink.SetBytes, hu] at h
      cases h
      exact ⟨rfl, rfl⟩
  · intro s2 h
    cases hu : unmarshal str with
    | none => rw [Groupcache.protoSink.SetString, hu] at h; exact absurd h (by simp)
    | some m2 =>
      rw [Groupcache.protoSink.SetString, hu] at h
      cases h
      exact ⟨rfl, rfl⟩
  · intro s2 h
    cases hm : marshal m with
    | none => rw [Groupcache.protoSink.SetProto, hm] at h; exact absurd h (by simp)
    | some b2 =>
      rw [Groupcache.protoSink.SetProto, hm] at h
      dsimp only at h
      cases hu : unmarshal b2 with
      | none => rw [hu] at h; exact absurd h (by simp)
      | some m2 =>
        rw [hu] at h
        cases h
        exact ⟨b2, rfl, rfl, hu⟩
  · intro s2 h
    cases hd : al.dst with
    | none => rw [Groupcache.allocBytesSink.SetString, hd] at h; exact absurd h (by simp)
    | some d =>
      rw [Groupcache.allocBytesSink.SetString, hd] at h
      cases h
      rfl
  · intro s2 h
    cases hd : al.dst with
    | none =>
      rw [Groupcache.allocBytesSink.SetBytes,
        Groupcache.allocBytesSink.setBytesOwned, hd] at h
      exact absurd h (by simp)
    | some d =>
      rw [Groupcache.allocBytesSink.SetBytes,
        Groupcache.allocBytesSink.setBytesOwned, hd] at h
      cases h
      rfl
  · intro s2 h
    cases hm : marshal m with
    | none => rw [Groupcache.allocBytesSink.SetProto, hm] at h; exact absurd h (by simp)
    | some b2 =>
      rw [Groupcache.allocBytesSink.SetProto, hm] at h
      dsimp only at h
      cases hd : al.dst with
      | none =>
        rw [Groupcache.allocBytesSink.setBytesOwned, hd] at h
        exact absurd h (by simp)
      | some d =>
        rw [Groupcache.allocBytesSink.setBytesOwned, hd] at h
        cases h
        rfl
  · intro s2 h
    cases hd : tr.dst with
    | none => rw [Groupcache.truncBytesSink.SetString, hd] at h; exact absurd h (by simp)
    | some d =>
      rw [Groupcache.truncBytesSink.SetString, hd] at h
      dsimp only at h
      cases h
      refine ⟨rfl, min d.length str.length, ?_⟩
      show some (if (goCopy d str).2 < (goCopy d str).1.length then
        (goCopy d str).1.take (goCopy d str).2 else (goCopy d str).1) = _
      rw [Groupcache.goCopy_shrink]
      rfl
  · intro s2 h
    cases hd : tr.dst with
    | none =>
      rw [Groupcache.truncBytesSink.SetBytes,
        Groupcache.truncBytesSink.setBytesOwned, hd] at h
      exact absurd h (by simp)
    | some d =>
      rw [Groupcache.truncBytesSink.SetBytes,
        Groupcache.truncBytesSink.setBytesOwned, hd] at h
      dsimp only at h
      cases h
      refine ⟨rfl, min d.length b.length, ?_⟩
      show some (if (goCopy d b).2 < (goCopy d b).1.length then
        (goCopy d b).1.take (goCopy d b).2 else (goCopy d b).1) = _
      rw [Groupcache.goCopy_shrink]
      rfl
  · intro s2 h
    cases hm : marshal m with
    | none => rw [Groupcache.truncBytesSink.SetProto, hm] at h; exact absurd h (by simp)
    | some b2 =>
      rw [Groupcache.truncBytesSink.SetProto, hm] at h
      dsimp only at h
      cases hd : tr.dst with
      | none =>
        rw [Groupcache.truncBytesSink.setBytesOwned, hd] at h
        exact absurd h (by simp)
      | some d =>
        rw [Groupcache.truncBytesSink.setBytesOwned, hd] at h
        dsimp only at h
        cases h
        refine ⟨b2, rfl, rfl, min d.length b2.length, ?_⟩
        show some (if (goCopy d b2).2 < (goCopy d b2).1.length then
          (goCopy d b2).1.take (goCopy d b2).2 else (goCopy d b2).1) = _
        rw [Groupcache.goCopy_shrink]
        rfl

/-- Witness for C4: a truncating sink with a two-byte target receiving
three bytes ends with the target holding the first two bytes — a prefix
of the view's contents. -/
theorem sink_view_matches_target_witness :
    (((⟨some [7, 8], ⟨some [7, 8, 9], []⟩⟩ :
        Groupcache.truncBytesSink).view).ByteSlice = [7, 8, 9]) ∧
    ∃ n, (⟨some [7, 8], ⟨some [7, 8, 9], []⟩⟩ :
        Groupcache.truncBytesSink).dst
      = some ((((⟨some [7, 8], ⟨some [7, 8, 9], []⟩⟩ :
          Groupcache.truncBytesSink).view).ByteSlice).take n) :=
  (sink_view_matches_target Unit (fun _ => some [5]) (fun _ => some ())
    ⟨[], ⟨none, []⟩⟩ ⟨⟨none, []⟩⟩ ⟨(), ⟨none, []⟩⟩ ⟨some [], ⟨none, []⟩⟩
    ⟨some [0, 0], ⟨none, []⟩⟩ [1] [7, 8, 9] ()).2.2.2.2.2.1
    ⟨some [7, 8], ⟨some [7, 8, 9], []⟩⟩ rfl

/-- Claim C3: in every configuration the coordinator can reach, at most
one invocation of `fn` per key is in flight at any instant (two threads
executing `fn` for the same key are the same thread), and a duplicate
caller that finished waiting received exactly the `(value, error)`
outcome of the original caller of its call record. -/
theorem singleflight_mutual_exclusion (K V : Type) [DecidableEq K]
    (ks : List K) (cfg : Singleflight.Config K V)
    (h : Singleflight.Reachable ks cfg) :
    (∀ (t1 t2 : Nat) (k : K) (cid1 cid2 : Nat),
      cfg.threads[t1]? = some (Singleflight.PC.running k cid1) →
      cfg.threads[t2]? = some (Singleflight.PC.running k cid2) →
      t1 = t2) ∧
    (∀ (t1 t2 : Nat) (k : K) (cid : Nat) (v v2 : V),
      cfg.threads[t1]? = some (Singleflight.PC.finishedWaiter k cid v) →
      Singleflight.ownerDoneWith cfg t2 cid v2 → v = v2) ∧
    (∀ (t1 : Nat) (k : K) (cid : Nat) (v : V),
      cfg.threads[t1]? = some (Singleflight.PC.finishedWaiter k cid v) →
      ∃ t2, Singleflight.ownerDoneWith cfg t2 cid v) := by
  have hinv := Singleflight.inv_reachable h
  refine ⟨?_, ?_, ?_⟩
  · intro t1 t2 k cid1 cid2 h1 h2
    have hf1 := hinv.activeMap t1 k cid1 (Or.inl h1)
    have hf2 := hinv.activeMap t2 k cid2 (Or.inl h2)
    rw [hf1] at hf2
    have hcid : cid1 = cid2 := Option.some.inj hf2
    rw [← hcid] at h2
    exact hinv.ownerUnique t1 t2 cid1 ⟨k, Or.inl h1⟩ ⟨k, Or.inl h2⟩
  · intro t1 t2 k cid v v2 h1 h2
    have hw := hinv.waiterCall t1 k cid v h1
    have ho := hinv.ownerCall t2 cid v2 h2
    rw [hw] at ho
    injection Option.some.inj ho with e1 e2
    exact Option.some.inj e2
  · intro t1 k cid v h1
    have hw := hinv.waiterCall t1 k cid v h1
    obtain ⟨t2, v2, hodw, hval⟩ := hinv.doneOwner cid ⟨true, some v⟩ hw rfl
    have he : v = v2 := Option.some.inj hval
    rw [he]
    exact ⟨t2, hodw⟩

/-- Witness for C3: two threads call `Do` for key 0; the first registers
and runs `fn` (outcome 42), the second becomes a duplicate waiter and is
released after the owner finishes — the released waiter's outcome 42 is
exactly the outcome of some owner of its call record. -/
theorem singleflight_mutual_exclusion_witness :
    ∃ t2, Singleflight.ownerDoneWith
      (⟨Singleflight.updateMap (fun _ => none) 0 (some 0),
        [⟨true, some 42⟩],
        [Singleflight.PC.afterDone 0 0 42,
         Singleflight.PC.finishedWaiter 0 0 42]⟩ :
        Singleflight.Config Nat Nat) t2 0 42 :=
  (singleflight_mutual_exclusion Nat Nat [0, 0]
    ⟨Singleflight.updateMap (fun _ => none) 0 (some 0), [⟨true, some 42⟩],
      [Singleflight.PC.afterDone 0 0 42,
       Singleflight.PC.finishedWaiter 0 0 42]⟩
    ((((Relation.ReflTransGen.single
        (Singleflight.Step.register (Singleflight.init [0, 0]) 0 0 rfl
          rfl)).tail
        (Singleflight.Step.dup
          ⟨Singleflight.updateMap (fun _ => none) 0 (some 0),
            [⟨false, none⟩],
            [Singleflight.PC.running 0 0, Singleflight.PC.atStart 0]⟩
          1 0 0 rfl (by decide))).tail
        (Singleflight.Step.finish
          ⟨Singleflight.updateMap (fun _ => none) 0 (some 0),
            [⟨false, none⟩],
            [Singleflight.PC.running 0 0, Singleflight.PC.waiting 0 0]⟩
          0 0 0 42 rfl)).tail
        (Singleflight.Step.reap
          ⟨Singleflight.updateMap (fun _ => none) 0 (some 0),
            [⟨true, some 42⟩],
            [Singleflight.PC.afterDone 0 0 42,
             Singleflight.PC.waiting 0 0]⟩
          1 0 0 42 rfl rfl))).2.2 1 0 0 42 rfl
